import Mathlib

/-!
The concurrent typed map of `container/cmap.go`.

A shallow embedding of `src/container/cmap.go` and a verification of its
specification.

Modelling decisions.

* `interface{}` values are the type `Value`: the nil interface, or a dynamic value of
  type `bool`, `int`, `string`, `float64` or `[]int`.  `[]int` stands for the types the
  Go runtime cannot hash (slices, maps, functions): an index expression, an assignment
  or a `delete` with such a key panics.  `float64` brings NaN, the key that is not `==`
  to itself.  Of the other `float64` values only the whole numbers below 10^6 are
  present, for which `%v` prints the plain decimal digits.
* `reflect.Type` is an interface, so a descriptor is `Option GoType`, `none` being
  the nil descriptor.
* The builtin map is a list of entries whose keys are hashable and pairwise not `==`.
  A lookup compares with `==`, so an entry under NaN is never found, and every
  assignment to NaN adds an entry.  Maps are reference values: `cmap.m` is an address
  into a heap of map objects, which is what lets `ToMap` be told apart from handing
  out the table itself.
* `sync.RWMutex` is a reader count and a writer flag.  A call that would have to
  wait for another goroutine is the outcome `Fault.blocked`; unlocking a mutex
  that is not held in that mode is fatal, as the `sync` documentation says.
* Every method is a sequential program over `ProgState`; a `defer`red call runs
  after the result expression has been evaluated and before the method returns,
  and also when the body panics: then the panic leaves the method unless the
  deferred call itself is fatal.
  The field `log` is ghost state: it records every mutex call and every access to
  the table together with the state of the mutex at that moment.
-/

namespace Container

/-! ## Values and type descriptors -/

/-- The kinds (`reflect.Kind`) of the modelled types. -/
inductive Kind
  | boolKind
  | intKind
  | stringKind
  | float64Kind
  | sliceKind
  deriving DecidableEq, Repr

/-- Type descriptors (`reflect.Type`) of the modelled dynamic types. -/
inductive GoType
  | bool
  | int
  | string
  | float64
  | intSlice
  deriving DecidableEq, Repr

/-- The method `Kind()` of a type descriptor. -/
def GoType.Kind : GoType → Kind
  | .bool => .boolKind
  | .int => .intKind
  | .string => .stringKind
  | .float64 => .float64Kind
  | .intSlice => .sliceKind

/-- The method `String()` of a kind. -/
def Kind.String : Kind → String
  | .boolKind => "bool"
  | .intKind => "int"
  | .stringKind => "string"
  | .float64Kind => "float64"
  | .sliceKind => "slice"

/-- The modelled `float64` values: NaN, and the whole numbers from 0 below 10^6. -/
inductive Float64
  | NaN
  | whole (n : Fin 1000000)
  deriving DecidableEq, Repr

/-- An `interface{}` value: nil, or a dynamic value of one of the modelled types. -/
inductive Value
  | nil
  | bool (b : Bool)
  | int (n : Int)
  | string (s : String)
  | float64 (f : Float64)
  | intSlice (xs : List Int)
  deriving DecidableEq, Repr

/-- The function `reflect.TypeOf`: the dynamic type, the nil descriptor for nil. -/
def TypeOf : Value → Option GoType
  | .nil => none
  | .bool _ => some .bool
  | .int _ => some .int
  | .string _ => some .string
  | .float64 _ => some .float64
  | .intSlice _ => some .intSlice

/-- The verb `%v` of `fmt.Sprintf` on an `interface{}` value. -/
def Value.format : Value → String
  | .nil => "<nil>"
  | .bool b => if b then "true" else "false"
  | .int n => toString n
  | .string s => s
  | .float64 .NaN => "NaN"
  | .float64 (.whole n) => toString n.val
  | .intSlice xs => "[" ++ String.intercalate " " (xs.map toString) ++ "]"

/-- Whether the runtime can hash the value as a map key: not a slice. -/
def Value.hashable : Value → Bool
  | .intSlice _ => false
  | _ => true

/-- The comparison `==` of two hashable `interface{}` values, as the builtin map applies it
to keys: equal dynamic types and equal values, and NaN differs from everything. On slices,
which the map never gets to compare, it is false. -/
def Value.equals : Value → Value → Bool
  | .nil, .nil => true
  | .bool a, .bool b => decide (a = b)
  | .int a, .int b => decide (a = b)
  | .string a, .string b => decide (a = b)
  | .float64 (.whole a), .float64 (.whole b) => decide (a = b)
  | _, _ => false

/-- Whether the value is `==` to itself: every hashable value but NaN. -/
def Value.selfEqual (v : Value) : Bool :=
  v.equals v

/-! ## The builtin map and the heap of map objects -/

/-- The value of the first entry whose key is `==` to `k`. -/
def lookupEntries : List (Value × Value) → Value → Option Value
  | [], _ => none
  | e :: rest, k => if e.1.equals k then some e.2 else lookupEntries rest k

/-- The assignment `m[k] = v` on the entries: the entry whose key is `==` to `k` gets the
value `v`, and when there is none the entry `(k, v)` is added. -/
def assignEntries : List (Value × Value) → Value → Value → List (Value × Value)
  | [], k, v => [(k, v)]
  | e :: rest, k, v =>
    if e.1.equals k then (e.1, v) :: rest else e :: assignEntries rest k v

/-- The builtin `delete(m, k)` on the entries: entries whose key is `==` to `k` go. -/
def deleteEntries (l : List (Value × Value)) (k : Value) : List (Value × Value) :=
  l.filter fun e => !e.1.equals k

/-- A map object `map[interface{}]interface{}`: finitely many entries, whose keys are
hashable and pairwise not `==`. -/
structure GoMap where
  entries : List (Value × Value)
  hashableKeys : ∀ e ∈ entries, e.1.hashable = true
  distinctKeys : entries.Pairwise fun a b => a.1.equals b.1 = false

instance : EmptyCollection GoMap :=
  ⟨{ entries := [], hashableKeys := by simp, distinctKeys := List.Pairwise.nil }⟩

/-- The entry found at `key`, if any: what an index expression reads for a hashable key. -/
def GoMap.lookup (m : GoMap) (key : Value) : Option Value :=
  lookupEntries m.entries key

/-- The value found at `key`, the zero value nil when there is none. -/
def GoMap.valueAt (m : GoMap) (key : Value) : Value :=
  (m.lookup key).getD Value.nil

/-- Whether an entry is found at `key`. -/
def GoMap.present (m : GoMap) (key : Value) : Bool :=
  (m.lookup key).isSome

/-- The ways in which a run stops without returning. `unhashableKey`, `nilDereference` and
`indexOutOfRange` are run-time panics, `unlockOfUnlocked` and `rUnlockOfUnlocked` are fatal
errors, and `blocked` is a call that waits for another goroutine. -/
inductive Fault
  | unlockOfUnlocked
  | rUnlockOfUnlocked
  | blocked
  | nilDereference
  | indexOutOfRange
  | unhashableKey
  deriving DecidableEq, Repr

/-- The single-result index expression `m[key]`: a panic for an unhashable key. -/
def GoMap.index (m : GoMap) (key : Value) : Except Fault Value :=
  if key.hashable then .ok (m.valueAt key) else .error .unhashableKey

/-- The two-result index expression `_, ok := m[key]`: a panic for an unhashable key. -/
def GoMap.has (m : GoMap) (key : Value) : Except Fault Bool :=
  if key.hashable then .ok (m.present key) else .error .unhashableKey

/-- The assignment `m[key] = elem` for a hashable key. -/
def GoMap.put (m : GoMap) (key elem : Value) (hk : key.hashable = true) : GoMap where
  entries := assignEntries m.entries key elem
  hashableKeys := by
    have h : ∀ l : List (Value × Value), (∀ e ∈ l, e.1.hashable = true) →
        ∀ e ∈ assignEntries l key elem, e.1.hashable = true := by
      intro l
      induction l with
      | nil =>
        intro _ e he
        simp only [assignEntries, List.mem_singleton] at he
        rw [he]
        exact hk
      | cons a l ih =>
        intro hl e he
        simp only [assignEntries] at he
        split at he
        · rcases List.mem_cons.1 he with h1 | h1
          · rw [h1]
            exact hl a (List.mem_cons_self a l)
          · exact hl e (List.mem_cons_of_mem a h1)
        · rcases List.mem_cons.1 he with h1 | h1
          · rw [h1]
            exact hl a (List.mem_cons_self a l)
          · exact ih (fun x hx => hl x (List.mem_cons_of_mem a hx)) e h1
    exact h m.entries m.hashableKeys
  distinctKeys := by
    have hkeys : ∀ l : List (Value × Value), ∀ x ∈ assignEntries l key elem,
        x.1 = key ∨ ∃ y ∈ l, y.1 = x.1 := by
      intro l
      induction l with
      | nil =>
        intro x hx
        simp only [assignEntries, List.mem_singleton] at hx
        exact Or.inl (by rw [hx])
      | cons a l ih =>
        intro x hx
        simp only [assignEntries] at hx
        split at hx
        · rcases List.mem_cons.1 hx with h1 | h1
          · exact Or.inr ⟨a, List.mem_cons_self a l, by rw [h1]⟩
          · exact Or.inr ⟨x, List.mem_cons_of_mem a h1, rfl⟩
        · rcases List.mem_cons.1 hx with h1 | h1
          · exact Or.inr ⟨a, List.mem_cons_self a l, by rw [h1]⟩
          · rcases ih x h1 with h2 | ⟨y, hy, h2⟩
            · exact Or.inl h2
            · exact Or.inr ⟨y, List.mem_cons_of_mem a hy, h2⟩
    have h : ∀ l : List (Value × Value), l.Pairwise (fun a b => a.1.equals b.1 = false) →
        (assignEntries l key elem).Pairwise (fun a b => a.1.equals b.1 = false) := by
      intro l
      induction l with
      | nil =>
        intro _
        simp [assignEntries]
      | cons a l ih =>
        intro hl
        have hl' := List.pairwise_cons.1 hl
        simp only [assignEntries]
        split
        · exact List.pairwise_cons.2 ⟨fun x hx => hl'.1 x hx, hl'.2⟩
        · rename_i hne
          refine List.pairwise_cons.2 ⟨fun x hx => ?_, ih hl'.2⟩
          rcases hkeys l x hx with h2 | ⟨y, hy, h2⟩
          · rw [h2]
            simpa using hne
          · rw [← h2]
            exact hl'.1 y hy
    exact h m.entries m.distinctKeys

/-- The assignment `m[key] = elem`: a panic for an unhashable key. -/
def GoMap.assign (m : GoMap) (key elem : Value) : Except Fault GoMap :=
  if hk : key.hashable = true then .ok (m.put key elem hk) else .error .unhashableKey

/-- The builtin `delete(m, key)` for a hashable key. -/
def GoMap.remove (m : GoMap) (key : Value) : GoMap where
  entries := deleteEntries m.entries key
  hashableKeys := fun e he => m.hashableKeys e (List.mem_of_mem_filter he)
  distinctKeys := List.Pairwise.sublist (List.filter_sublist _) m.distinctKeys

/-- The builtin `delete(m, key)`: a panic for an unhashable key. -/
def GoMap.delete (m : GoMap) (key : Value) : Except Fault GoMap :=
  if key.hashable then .ok (m.remove key) else .error .unhashableKey

/-- The builtin `len(m)`. -/
def GoMap.len (m : GoMap) : Nat :=
  m.entries.length

/-- The entries in the order in which one `range` loop visits them. -/
def GoMap.range (m : GoMap) : List (Value × Value) :=
  m.entries

/-- Addresses of map objects. -/
abbrev Addr := Nat

/-- The heap of map objects; addresses from `next` on have not been allocated. -/
structure Heap where
  objs : Addr → GoMap
  next : Addr

/-- The expression `make(map[interface{}]interface{})`: a fresh, empty map object. -/
def Heap.make (h : Heap) : Addr × Heap :=
  (h.next, { objs := Function.update h.objs h.next ∅, next := h.next + 1 })

/-- Replace the map object at an address. -/
def Heap.set (h : Heap) (a : Addr) (m : GoMap) : Heap :=
  { h with objs := Function.update h.objs a m }

/-! ## sync.RWMutex -/

/-- A reader/writer mutex: the number of shared holds and the exclusive hold. -/
structure RWMutex where
  readers : Nat
  writer : Bool
  deriving DecidableEq, Repr

/-- The zero value of `sync.RWMutex`: not held. -/
def RWMutex.unheld : RWMutex := { readers := 0, writer := false }

/-- The method `RLock`: waits while a writer holds the mutex. -/
def RWMutex.RLock (rw : RWMutex) : Except Fault RWMutex :=
  if rw.writer then .error .blocked else .ok { rw with readers := rw.readers + 1 }

/-- The method `RUnlock`: fatal when no shared hold exists. -/
def RWMutex.RUnlock (rw : RWMutex) : Except Fault RWMutex :=
  if rw.readers = 0 then .error .rUnlockOfUnlocked
  else .ok { rw with readers := rw.readers - 1 }

/-- The method `Lock`: waits while the mutex is held in either mode. -/
def RWMutex.Lock (rw : RWMutex) : Except Fault RWMutex :=
  if rw.writer || decide (0 < rw.readers) then .error .blocked
  else .ok { rw with writer := true }

/-- The method `Unlock`: fatal when the mutex is not held for writing. -/
def RWMutex.Unlock (rw : RWMutex) : Except Fault RWMutex :=
  if rw.writer then .ok { rw with writer := false } else .error .unlockOfUnlocked

/-! ## The container and the program state -/

/-- The struct `myConcurrentMap`; `m` is the reference to the table. -/
structure myConcurrentMap where
  m : Addr
  keyType : Option GoType
  elemType : Option GoType
  rwmutex : RWMutex

/-- What the ghost log records. -/
inductive Event
  | RLock
  | RUnlock
  | Lock
  | Unlock
  | read (held : RWMutex)
  | write (held : RWMutex)
  deriving DecidableEq, Repr

/-- The locking discipline on one log entry: a read of the table is made under a hold of the
mutex, shared or exclusive, and a write under the exclusive hold. -/
def Event.disciplined : Event → Bool
  | .read held => held.writer || decide (0 < held.readers)
  | .write held => held.writer
  | _ => true

/-- The state of a run: the container, the heap, and the ghost log (oldest first). -/
structure ProgState where
  cmap : myConcurrentMap
  heap : Heap
  log : List Event

/-- The map object that `cmap.m` refers to. -/
def ProgState.table (s : ProgState) : GoMap :=
  s.heap.objs s.cmap.m

/-- Sequential programs over the state that may stop with a fault. -/
abbrev Prog := StateT ProgState (Except Fault)

/-- One call of a method of `cmap.rwmutex`, recorded in the log when it returns. -/
def mutexCall (f : RWMutex → Except Fault RWMutex) (ev : Event) : Prog Unit := fun s =>
  match f s.cmap.rwmutex with
  | .error e => .error e
  | .ok rw => .ok ((), { s with cmap := { s.cmap with rwmutex := rw }, log := s.log ++ [ev] })

/-- The statement `cmap.rwmutex.RLock()`. -/
def rwmutexRLock : Prog Unit := mutexCall RWMutex.RLock Event.RLock

/-- The statement `cmap.rwmutex.RUnlock()`. -/
def rwmutexRUnlock : Prog Unit := mutexCall RWMutex.RUnlock Event.RUnlock

/-- The statement `cmap.rwmutex.Lock()`. -/
def rwmutexLock : Prog Unit := mutexCall RWMutex.Lock Event.Lock

/-- The statement `cmap.rwmutex.Unlock()`. -/
def rwmutexUnlock : Prog Unit := mutexCall RWMutex.Unlock Event.Unlock

/-- A step of a method body that can panic, under a pending `defer`: on a panic the deferred
call runs on the state of that moment; the panic then leaves the method, unless the deferred
call is itself fatal. -/
def orPanic {α : Type} (x : Except Fault α) (deferred : Prog Unit) : Prog α := fun s =>
  match x with
  | .ok a => .ok (a, s)
  | .error f =>
    match deferred s with
    | .ok _ => .error f
    | .error g => .error g

/-- A read access to `cmap.m`: yields the map object, recorded with the mutex state. -/
def readTable : Prog GoMap := fun s =>
  .ok (s.table, { s with log := s.log ++ [Event.read s.cmap.rwmutex] })

/-- The statement `cmap.m[key] = elem` under a pending `defer`: a write access to the
table, or the panic of an unhashable key. -/
def assignTable (key elem : Value) (deferred : Prog Unit) : Prog Unit := fun s =>
  match s.table.assign key elem with
  | .ok m => .ok ((), { s with heap := s.heap.set s.cmap.m m,
                               log := s.log ++ [Event.write s.cmap.rwmutex] })
  | .error f => orPanic (.error f) deferred s

/-- The statement `delete(cmap.m, key)` under a pending `defer`: a write access to the
table, or the panic of an unhashable key. -/
def deleteTable (key : Value) (deferred : Prog Unit) : Prog Unit := fun s =>
  match s.table.delete key with
  | .ok m => .ok ((), { s with heap := s.heap.set s.cmap.m m,
                               log := s.log ++ [Event.write s.cmap.rwmutex] })
  | .error f => orPanic (.error f) deferred s

/-- The statement `cmap.m = make(map[interface{}]interface{})`: a write access. -/
def resetTable : Prog Unit := fun s =>
  .ok ((), { s with cmap := { s.cmap with m := s.heap.make.1 }, heap := s.heap.make.2,
                    log := s.log ++ [Event.write s.cmap.rwmutex] })

/-! ## The methods of `myConcurrentMap` -/

/-- The method `isAcceptablePair`. -/
def myConcurrentMap.isAcceptablePair (cmap : myConcurrentMap) (k e : Value) : Bool :=
  if k = Value.nil ∨ TypeOf k ≠ cmap.keyType then false
  else if e = Value.nil ∨ TypeOf e ≠ cmap.elemType then false
  else true

/-- The method `Get`: `RLock`, the deferred call is `Unlock`. -/
def myConcurrentMap.Get (key : Value) : Prog Value := do
  rwmutexRLock
  let t ← readTable
  let result ← orPanic (t.index key) rwmutexUnlock
  rwmutexUnlock
  return result

/-- The method `Put`. -/
def myConcurrentMap.Put (key elem : Value) : Prog (Value × Bool) := do
  let s ← get
  if !s.cmap.isAcceptablePair key elem then
    return (Value.nil, false)
  else
    rwmutexLock
    let t ← readTable
    let oldEle ← orPanic (t.index key) rwmutexUnlock
    assignTable key elem rwmutexUnlock
    rwmutexUnlock
    return (oldEle, true)

/-- The method `Remove`. -/
def myConcurrentMap.Remove (key : Value) : Prog Value := do
  rwmutexLock
  let t ← readTable
  let oldElem ← orPanic (t.index key) rwmutexUnlock
  deleteTable key rwmutexUnlock
  rwmutexUnlock
  return oldElem

/-- The method `Clear`. -/
def myConcurrentMap.Clear : Prog Unit := do
  rwmutexLock
  resetTable
  rwmutexUnlock

/-- The method `Len`. -/
def myConcurrentMap.Len : Prog Nat := do
  rwmutexRLock
  let t ← readTable
  let result := t.len
  rwmutexRUnlock
  return result

/-- The method `Contains`. -/
def myConcurrentMap.Contains (key : Value) : Prog Bool := do
  rwmutexRLock
  let t ← readTable
  let ok ← orPanic (t.has key) rwmutexRUnlock
  rwmutexRUnlock
  return ok

/-- The expression `make(map[interface{}]interface{})` for a local variable. -/
def makeMap : Prog Addr := fun s =>
  .ok (s.heap.make.1, { s with heap := s.heap.make.2 })

/-- The statement `replica[k] = v` on the map object at address `replica`, under a pending
`defer`. -/
def mapAssign (replica : Addr) (k v : Value) (deferred : Prog Unit) : Prog Unit := fun s =>
  match (s.heap.objs replica).assign k v with
  | .ok m => .ok ((), { s with heap := s.heap.set replica m })
  | .error f => orPanic (.error f) deferred s

/-- A step that cannot touch the state, with no `defer` pending. -/
def liftExcept {α : Type} (x : Except Fault α) : Prog α := fun s =>
  match x with
  | .ok a => .ok (a, s)
  | .error e => .error e

/-- The statement `xs[index] = v` on a slice: a run-time panic when out of range. -/
def sliceAssign (xs : List Value) (index : Nat) (v : Value) : Except Fault (List Value) :=
  if index < xs.length then .ok (xs.set index v) else .error .indexOutOfRange

/-- The loop body `xs[index] = v; index++` on the slice and the counter. -/
def fillStep (acc : List Value × Nat) (v : Value) : Except Fault (List Value × Nat) :=
  match sliceAssign acc.1 acc.2 v with
  | .ok ys => .ok (ys, acc.2 + 1)
  | .error e => .error e

/-- The loop `index := 0; for .. { xs[index] = v; index++ }` over the visited values. -/
def fillSlice (xs : List Value) (visited : List Value) : Except Fault (List Value) :=
  match visited.foldlM fillStep (xs, 0) with
  | .ok acc => .ok acc.1
  | .error e => .error e

/-- The method `Keys`. -/
def myConcurrentMap.Keys : Prog (List Value) := do
  rwmutexRLock
  let t ← readTable
  let keys := List.replicate t.len Value.nil
  let t ← readTable
  let keys ← orPanic (fillSlice keys (t.range.map Prod.fst)) rwmutexRUnlock
  rwmutexRUnlock
  return keys

/-- The method `Elems`. -/
def myConcurrentMap.Elems : Prog (List Value) := do
  rwmutexRLock
  let t ← readTable
  let elems := List.replicate t.len Value.nil
  let t ← readTable
  let elems ← orPanic (fillSlice elems (t.range.map Prod.snd)) rwmutexRUnlock
  rwmutexRUnlock
  return elems

/-- The loop `for k, v := range m { body }` over the visited entries. -/
def rangeLoop (visited : List (Value × Value)) (body : Value → Value → Prog Unit) :
    Prog Unit :=
  match visited with
  | [] => pure ()
  | kv :: rest => do
    body kv.1 kv.2
    rangeLoop rest body

/-- The method `ToMap`; the result is the reference to the new map object. -/
def myConcurrentMap.ToMap : Prog Addr := do
  rwmutexRLock
  let replica ← makeMap
  let t ← readTable
  rangeLoop t.range fun k v => mapAssign replica k v rwmutexRUnlock
  rwmutexRUnlock
  return replica

/-- The method `KeyType`. -/
def myConcurrentMap.KeyType : Prog (Option GoType) := do
  let s ← get
  return s.cmap.keyType

/-- The method `ElemType`. -/
def myConcurrentMap.ElemType : Prog (Option GoType) := do
  let s ← get
  return s.cmap.elemType

/-- A method call on a type descriptor: a nil descriptor is a nil dereference. -/
def deref (t : Option GoType) : Except Fault GoType :=
  match t with
  | some ty => .ok ty
  | none => .error .nilDereference

/-- The body of the loop of `String`, on the buffer and the flag `first`. -/
def renderEntry (acc : String × Bool) (kv : Value × Value) : String × Bool :=
  let buf := if acc.2 then acc.1 else acc.1 ++ " "
  (buf ++ kv.1.format ++ ":" ++ kv.2.format, false)

/-- The method `String`; it calls no method of the mutex. -/
def myConcurrentMap.String : Prog String := do
  let s ← get
  let buf := "ConcurrentMap<"
  let kt ← liftExcept (deref s.cmap.keyType)
  let buf := buf ++ kt.Kind.String
  let buf := buf ++ ","
  let et ← liftExcept (deref s.cmap.elemType)
  let buf := buf ++ et.Kind.String
  let buf := buf ++ ">\x7b"
  let t ← readTable
  let buf := (t.range.foldl renderEntry (buf, true)).1
  let buf := buf ++ "\x7d"
  return buf

/-- The constructor `NewConcurrentMap`, allocating the table in the given heap. -/
def NewConcurrentMap (keyType elemType : Option GoType) (h : Heap) : ProgState :=
  { cmap := { m := h.make.1, keyType := keyType, elemType := elemType,
              rwmutex := RWMutex.unheld },
    heap := h.make.2,
    log := [] }

/-! ## Sequences of calls and the states they reach -/

/-- A call of one public method. -/
inductive Call
  | Get (key : Value)
  | Put (key elem : Value)
  | Remove (key : Value)
  | Clear
  | Len
  | Contains (key : Value)
  | Keys
  | Elems
  | ToMap
  | KeyType
  | ElemType
  | String
  deriving DecidableEq, Repr

/-- Run one call and drop its result. -/
def Call.run : Call → Prog Unit
  | .Get key => do let _ ← myConcurrentMap.Get key
  | .Put key elem => do let _ ← myConcurrentMap.Put key elem
  | .Remove key => do let _ ← myConcurrentMap.Remove key
  | .Clear => myConcurrentMap.Clear
  | .Len => do let _ ← myConcurrentMap.Len
  | .Contains key => do let _ ← myConcurrentMap.Contains key
  | .Keys => do let _ ← myConcurrentMap.Keys
  | .Elems => do let _ ← myConcurrentMap.Elems
  | .ToMap => do let _ ← myConcurrentMap.ToMap
  | .KeyType => do let _ ← myConcurrentMap.KeyType
  | .ElemType => do let _ ← myConcurrentMap.ElemType
  | .String => do let _ ← myConcurrentMap.String

/-- Run a sequence of calls one after the other. -/
def runCalls : List Call → Prog Unit
  | [] => pure ()
  | c :: cs => do c.run; runCalls cs

/-- The states in which a container made by `NewConcurrentMap keyType elemType` can be
after a sequence of calls that have all returned. -/
def Reachable (keyType elemType : Option GoType) (s : ProgState) : Prop :=
  ∃ (h : Heap) (calls : List Call),
    runCalls calls (NewConcurrentMap keyType elemType h) = .ok ((), s)

/-- No goroutine holds the mutex: the state between two calls of a sequential run. -/
def ProgState.Idle (s : ProgState) : Prop :=
  s.cmap.rwmutex = RWMutex.unheld

/-- The table has been allocated: its address lies below the allocation pointer. -/
def ProgState.Allocated (s : ProgState) : Prop :=
  s.cmap.m < s.heap.next

instance (s : ProgState) : Decidable s.Idle :=
  inferInstanceAs (Decidable (s.cmap.rwmutex = RWMutex.unheld))

instance (s : ProgState) : Decidable s.Allocated :=
  inferInstanceAs (Decidable (s.cmap.m < s.heap.next))

/-- Every entry of the table has a non-nil key and value of the declared types. -/
def ProgState.Typed (s : ProgState) : Prop :=
  ∀ k v, (k, v) ∈ s.table.entries →
    k ≠ Value.nil ∧ TypeOf k = s.cmap.keyType ∧ v ≠ Value.nil ∧ TypeOf v = s.cmap.elemType

/-- The entries obtained from `acc` by the assignments `m[k] = v` of a loop over `l`. -/
def copyEntries (l : List (Value × Value)) (acc : List (Value × Value)) :
    List (Value × Value) :=
  l.foldl (fun es kv => assignEntries es kv.1 kv.2) acc

/-- A heap in which nothing has been allocated. -/
def emptyHeap : Heap :=
  { objs := fun _ => ∅, next := 0 }

/-- A new container for string keys and integer elements. -/
def stringIntMap : ProgState :=
  NewConcurrentMap (some GoType.string) (some GoType.int) emptyHeap

/-- A new container for `float64` keys and integer elements. -/
def floatIntMap : ProgState :=
  NewConcurrentMap (some GoType.float64) (some GoType.int) emptyHeap

/-- The state after a sequence of calls; the start state when the run stops with a fault. -/
def stateAfter (calls : List Call) (s : ProgState) : ProgState :=
  match runCalls calls s with
  | .ok (_, t) => t
  | .error _ => s

/-- The rendering `k:v` of one entry, in the words of the specification of `String`. -/
def entryText (kv : Value × Value) : String :=
  kv.1.format ++ ":" ++ kv.2.format

open myConcurrentMap

/-! ## The comparison of keys and the builtin map -/

theorem Value.equals_eq {a b : Value} (h : a.equals b = true) : a = b := by
  cases a <;> cases b <;> simp [Value.equals] at h
  · rfl
  · rw [h]
  · rw [h]
  · rw [h]
  · rename_i f g
    cases f <;> cases g <;> simp at h
    rw [h]

theorem Value.selfEqual_of_equals {a b : Value} (h : a.equals b = true) :
    a.selfEqual = true := by
  have hab := Value.equals_eq h
  subst hab
  exact h

theorem Value.selfEqual_right_of_equals {a b : Value} (h : a.equals b = true) :
    b.selfEqual = true := by
  have hab := Value.equals_eq h
  subst hab
  exact h

theorem Value.equals_of_ne {a b : Value} (h : a ≠ b) : a.equals b = false := by
  cases hab : a.equals b with
  | false => rfl
  | true => exact absurd (Value.equals_eq hab) h

theorem Value.equals_of_not_selfEqual {a b : Value} (h : b.selfEqual = false) :
    a.equals b = false := by
  cases hab : a.equals b with
  | false => rfl
  | true =>
    rw [Value.selfEqual_right_of_equals hab] at h
    cases h

theorem Value.hashable_of_selfEqual {a : Value} (h : a.selfEqual = true) :
    a.hashable = true := by
  cases a <;> simp [Value.selfEqual, Value.equals, Value.hashable] at h ⊢

theorem lookupEntries_of_not_selfEqual (l : List (Value × Value)) {k : Value}
    (h : k.selfEqual = false) : lookupEntries l k = none := by
  induction l with
  | nil => rfl
  | cons e l ih => simp [lookupEntries, Value.equals_of_not_selfEqual h, ih]

theorem lookupEntries_assign_ne (l : List (Value × Value)) {k k2 : Value} (v : Value)
    (hne : k2 ≠ k) : lookupEntries (assignEntries l k v) k2 = lookupEntries l k2 := by
  have hk : k.equals k2 = false := Value.equals_of_ne (fun h => hne h.symm)
  induction l with
  | nil => simp [assignEntries, lookupEntries, hk]
  | cons e l ih =>
    simp only [assignEntries]
    split
    · rename_i he
      have hek : e.1 = k := Value.equals_eq he
      have : e.1.equals k2 = false := by rw [hek]; exact hk
      simp [lookupEntries, this]
    · simp only [lookupEntries, ih]

theorem lookupEntries_delete_self (l : List (Value × Value)) (k : Value) :
    lookupEntries (deleteEntries l k) k = none := by
  induction l with
  | nil => rfl
  | cons e l ih =>
    by_cases he : e.1.equals k = true
    · simpa [deleteEntries, List.filter_cons, he] using ih
    · have he' : e.1.equals k = false := by simpa using he
      simp only [deleteEntries, List.filter_cons, he', Bool.not_false, if_true, lookupEntries]
      simpa [deleteEntries] using ih

theorem lookupEntries_delete_ne (l : List (Value × Value)) {k k2 : Value} (hne : k2 ≠ k) :
    lookupEntries (deleteEntries l k) k2 = lookupEntries l k2 := by
  induction l with
  | nil => rfl
  | cons e l ih =>
    by_cases he : e.1.equals k = true
    · have hek : e.1 = k := Value.equals_eq he
      have h2 : e.1.equals k2 = false := Value.equals_of_ne (by rw [hek]; exact fun h => hne h.symm)
      simp only [deleteEntries, List.filter_cons, he, Bool.not_true, lookupEntries, h2]
      simpa [deleteEntries] using ih
    · have he' : e.1.equals k = false := by simpa using he
      simp only [deleteEntries, List.filter_cons, he', Bool.not_false, if_true, lookupEntries]
      rw [show List.filter (fun e => !e.1.equals k) l = deleteEntries l k from rfl, ih]

theorem mem_of_lookupEntries {l : List (Value × Value)} {k v : Value}
    (h : lookupEntries l k = some v) : (k, v) ∈ l := by
  induction l with
  | nil => cases h
  | cons e l ih =>
    simp only [lookupEntries] at h
    split at h
    · rename_i he
      have hek : e.1 = k := Value.equals_eq he
      have hv : e.2 = v := by simpa using h
      have : e = (k, v) := by
        cases e
        simp_all
      rw [this]
      exact List.mem_cons_self _ _
    · exact List.mem_cons_of_mem _ (ih h)

theorem lookupEntries_of_mem {l : List (Value × Value)} {k v : Value}
    (hd : l.Pairwise fun a b => a.1.equals b.1 = false) (hk : k.selfEqual = true)
    (h : (k, v) ∈ l) : lookupEntries l k = some v := by
  induction l with
  | nil => cases h
  | cons e l ih =>
    have hd' := List.pairwise_cons.1 hd
    rcases List.mem_cons.1 h with h1 | h1
    · subst h1
      have hk2 : k.equals k = true := hk
      simp only [lookupEntries, hk2, if_true]
    · have hne : e.1.equals k = false := hd'.1 (k, v) h1
      simp only [lookupEntries, hne]
      exact ih hd'.2 h1

theorem mem_assignEntries {l : List (Value × Value)} {k v : Value} {x : Value × Value}
    (h : x ∈ assignEntries l k v) : x = (k, v) ∨ x ∈ l := by
  induction l with
  | nil =>
    simp only [assignEntries, List.mem_singleton] at h
    exact Or.inl h
  | cons e l ih =>
    simp only [assignEntries] at h
    split at h
    · rename_i he
      have hek : e.1 = k := Value.equals_eq he
      rcases List.mem_cons.1 h with h1 | h1
      · exact Or.inl (by rw [h1, hek])
      · exact Or.inr (List.mem_cons_of_mem _ h1)
    · rcases List.mem_cons.1 h with h1 | h1
      · exact Or.inr (by rw [h1]; exact List.mem_cons_self _ _)
      · rcases ih h1 with h2 | h2
        · exact Or.inl h2
        · exact Or.inr (List.mem_cons_of_mem _ h2)

theorem mem_deleteEntries {l : List (Value × Value)} {k : Value} {x : Value × Value}
    (h : x ∈ deleteEntries l k) : x ∈ l :=
  List.mem_of_mem_filter h

theorem assignEntries_append (acc : List (Value × Value)) (k v : Value)
    (h : ∀ e ∈ acc, e.1.equals k = false) : assignEntries acc k v = acc ++ [(k, v)] := by
  induction acc with
  | nil => rfl
  | cons e l ih =>
    have he : e.1.equals k = false := h e (List.mem_cons_self _ _)
    simp only [assignEntries, he, List.cons_append]
    rw [ih fun x hx => h x (List.mem_cons_of_mem _ hx)]
    rfl

theorem copyEntries_append (l acc : List (Value × Value))
    (hd : (acc ++ l).Pairwise fun a b => a.1.equals b.1 = false) :
    copyEntries l acc = acc ++ l := by
  induction l generalizing acc with
  | nil => simp [copyEntries]
  | cons e l ih =>
    have hstep : assignEntries acc e.1 e.2 = acc ++ [e] := by
      rw [assignEntries_append]
      intro x hx
      have := List.pairwise_append.1 hd
      exact this.2.2 x hx e (List.mem_cons_self _ _)
    have hd2 : ((acc ++ [e]) ++ l).Pairwise fun a b => a.1.equals b.1 = false := by
      simpa using hd
    have := ih (acc ++ [e]) hd2
    simp only [copyEntries, List.foldl_cons] at this ⊢
    rw [hstep, this]
    simp

theorem GoMap.ext {m n : GoMap} (h : m.entries = n.entries) : m = n := by
  cases m
  cases n
  simp only at h
  subst h
  rfl

theorem GoMap.lookup_empty (k : Value) : (∅ : GoMap).lookup k = none := rfl

theorem GoMap.entries_empty : (∅ : GoMap).entries = [] := rfl

theorem GoMap.lookup_put_ne (m : GoMap) {k k2 : Value} (v : Value) (hk : k.hashable = true)
    (hne : k2 ≠ k) : (m.put k v hk).lookup k2 = m.lookup k2 :=
  lookupEntries_assign_ne m.entries v hne

theorem GoMap.lookup_remove_self (m : GoMap) (k : Value) : (m.remove k).lookup k = none :=
  lookupEntries_delete_self m.entries k

theorem GoMap.lookup_remove_ne (m : GoMap) {k k2 : Value} (hne : k2 ≠ k) :
    (m.remove k).lookup k2 = m.lookup k2 :=
  lookupEntries_delete_ne m.entries hne

theorem GoMap.lookup_of_not_selfEqual (m : GoMap) {k : Value} (h : k.selfEqual = false) :
    m.lookup k = none :=
  lookupEntries_of_not_selfEqual m.entries h

theorem GoMap.mem_of_lookup {m : GoMap} {k v : Value} (h : m.lookup k = some v) :
    (k, v) ∈ m.entries :=
  mem_of_lookupEntries h

theorem GoMap.lookup_of_mem {m : GoMap} {k v : Value} (hk : k.selfEqual = true)
    (h : (k, v) ∈ m.entries) : m.lookup k = some v :=
  lookupEntries_of_mem m.distinctKeys hk h

theorem GoMap.index_hashable (m : GoMap) {k : Value} (hk : k.hashable = true) :
    m.index k = .ok (m.valueAt k) := by
  simp [GoMap.index, hk]

theorem GoMap.index_unhashable (m : GoMap) {k : Value} (hk : k.hashable = false) :
    m.index k = .error Fault.unhashableKey := by
  simp [GoMap.index, hk]

theorem GoMap.has_hashable (m : GoMap) {k : Value} (hk : k.hashable = true) :
    m.has k = .ok (m.present k) := by
  simp [GoMap.has, hk]

theorem GoMap.has_unhashable (m : GoMap) {k : Value} (hk : k.hashable = false) :
    m.has k = .error Fault.unhashableKey := by
  simp [GoMap.has, hk]

theorem GoMap.assign_hashable (m : GoMap) (k v : Value) (hk : k.hashable = true) :
    m.assign k v = .ok (m.put k v hk) := by
  simp [GoMap.assign, hk]

theorem GoMap.delete_hashable (m : GoMap) {k : Value} (hk : k.hashable = true) :
    m.delete k = .ok (m.remove k) := by
  simp [GoMap.delete, hk]

/-! ## The methods on a state whose mutex is not held -/

theorem cmap_unheld_eta (c : myConcurrentMap) (h : c.rwmutex = RWMutex.unheld) :
    ({ m := c.m, keyType := c.keyType, elemType := c.elemType,
       rwmutex := { readers := 0, writer := false } } : myConcurrentMap) = c := by
  cases c
  simp_all [RWMutex.unheld]

theorem Heap.set_self (h : Heap) (a : Addr) : h.set a (h.objs a) = h := by
  cases h
  simp [Heap.set]

theorem Heap.set_set (h : Heap) (a : Addr) (m m' : GoMap) :
    (h.set a m).set a m' = h.set a m' := by
  cases h
  simp [Heap.set]

theorem Heap.set_objs_self (h : Heap) (a : Addr) (m : GoMap) : (h.set a m).objs a = m := by
  simp [Heap.set]

theorem Heap.set_objs_ne (h : Heap) (a b : Addr) (m : GoMap) (hab : b ≠ a) :
    (h.set a m).objs b = h.objs b := by
  simp [Heap.set, Function.update_noteq hab]

theorem Get_faults (key : Value) (s : ProgState) (h : s.cmap.rwmutex.writer = false) :
    Get key s = .error Fault.unlockOfUnlocked := by
  cases hk : key.hashable <;>
  simp [Get, rwmutexRLock, rwmutexUnlock, mutexCall, readTable, RWMutex.RLock, RWMutex.Unlock,
    h, bind, StateT.bind, Except.bind, orPanic, GoMap.index, hk]

theorem Get_blocked (key : Value) (s : ProgState) (h : s.cmap.rwmutex.writer = true) :
    Get key s = .error Fault.blocked := by
  simp [Get, rwmutexRLock, rwmutexUnlock, mutexCall, readTable, RWMutex.RLock, RWMutex.Unlock, h,
    bind, StateT.bind, Except.bind]

theorem Put_rejected (key elem : Value) (s : ProgState)
    (h : s.cmap.isAcceptablePair key elem = false) :
    Put key elem s = .ok ((Value.nil, false), s) := by
  simp [Put, h, bind, StateT.bind, Except.bind, get, getThe, MonadStateOf.get, StateT.get, pure,
    Except.pure, StateT.pure]

theorem Put_accepted (key elem : Value) (s : ProgState)
    (h : s.cmap.isAcceptablePair key elem = true) (hi : s.Idle) (hk : key.hashable = true) :
    Put key elem s = .ok ((s.table.valueAt key, true),
      { s with heap := s.heap.set s.cmap.m (s.table.put key elem hk),
               log := s.log ++ [Event.Lock, Event.read ⟨0, true⟩, Event.write ⟨0, true⟩,
                                Event.Unlock] }) := by
  have hi' : s.cmap.rwmutex = RWMutex.unheld := hi
  simp [Put, h, hi', bind, StateT.bind, Except.bind, get, getThe, MonadStateOf.get, StateT.get,
    pure,
    Except.pure, StateT.pure, rwmutexLock, rwmutexUnlock, mutexCall, readTable, assignTable,
    RWMutex.Lock, RWMutex.Unlock, RWMutex.unheld, ProgState.table, orPanic, GoMap.index,
    GoMap.assign, hk]
  exact cmap_unheld_eta _ hi'

theorem Put_unhashable (key elem : Value) (s : ProgState)
    (h : s.cmap.isAcceptablePair key elem = true) (hi : s.Idle) (hk : key.hashable = false) :
    Put key elem s = .error Fault.unhashableKey := by
  have hi' : s.cmap.rwmutex = RWMutex.unheld := hi
  simp [Put, h, hi', bind, StateT.bind, Except.bind, get, getThe, MonadStateOf.get, StateT.get,
    pure,
    Except.pure, StateT.pure, rwmutexLock, rwmutexUnlock, mutexCall, readTable, assignTable,
    RWMutex.Lock, RWMutex.Unlock, RWMutex.unheld, ProgState.table, orPanic, GoMap.index, hk]

theorem Remove_idle (key : Value) (s : ProgState) (hi : s.Idle) (hk : key.hashable = true) :
    Remove key s = .ok (s.table.valueAt key,
      { s with heap := s.heap.set s.cmap.m (s.table.remove key),
               log := s.log ++ [Event.Lock, Event.read ⟨0, true⟩, Event.write ⟨0, true⟩,
                                Event.Unlock] }) := by
  have hi' : s.cmap.rwmutex = RWMutex.unheld := hi
  simp [Remove, hi', bind, StateT.bind, Except.bind, pure,
    Except.pure, StateT.pure, rwmutexLock, rwmutexUnlock, mutexCall, readTable, deleteTable,
    RWMutex.Lock, RWMutex.Unlock, RWMutex.unheld, ProgState.table, orPanic, GoMap.index,
    GoMap.delete, hk]
  exact cmap_unheld_eta _ hi'

theorem Remove_unhashable (key : Value) (s : ProgState) (hi : s.Idle)
    (hk : key.hashable = false) : Remove key s = .error Fault.unhashableKey := by
  have hi' : s.cmap.rwmutex = RWMutex.unheld := hi
  simp [Remove, hi', bind, StateT.bind, Except.bind, pure,
    Except.pure, StateT.pure, rwmutexLock, rwmutexUnlock, mutexCall, readTable, deleteTable,
    RWMutex.Lock, RWMutex.Unlock, RWMutex.unheld, ProgState.table, orPanic, GoMap.index, hk]

theorem Clear_idle (s : ProgState) (hi : s.Idle) :
    Clear s = .ok ((),
      { cmap := { s.cmap with m := s.heap.next },
        heap := s.heap.make.2,
        log := s.log ++ [Event.Lock, Event.write ⟨0, true⟩, Event.Unlock] }) := by
  have hi' : s.cmap.rwmutex = RWMutex.unheld := hi
  simp [Clear, hi', bind, StateT.bind, Except.bind, pure,
    Except.pure, StateT.pure, rwmutexLock, rwmutexUnlock, mutexCall, resetTable,
    RWMutex.Lock, RWMutex.Unlock, RWMutex.unheld, ProgState.table, Heap.make]

theorem Len_idle (s : ProgState) (hi : s.Idle) :
    Len s = .ok (s.table.len,
      { s with log := s.log ++ [Event.RLock, Event.read ⟨1, false⟩, Event.RUnlock] }) := by
  have hi' : s.cmap.rwmutex = RWMutex.unheld := hi
  simp [Len, hi', bind, StateT.bind, Except.bind, pure,
    Except.pure, StateT.pure, rwmutexRLock, rwmutexRUnlock, mutexCall, readTable,
    RWMutex.RLock, RWMutex.RUnlock, RWMutex.unheld, ProgState.table]
  exact cmap_unheld_eta _ hi'

theorem Contains_idle (key : Value) (s : ProgState) (hi : s.Idle) (hk : key.hashable = true) :
    Contains key s = .ok (s.table.present key,
      { s with log := s.log ++ [Event.RLock, Event.read ⟨1, false⟩, Event.RUnlock] }) := by
  have hi' : s.cmap.rwmutex = RWMutex.unheld := hi
  simp [Contains, hi', bind, StateT.bind, Except.bind, pure,
    Except.pure, StateT.pure, rwmutexRLock, rwmutexRUnlock, mutexCall, readTable,
    RWMutex.RLock, RWMutex.RUnlock, RWMutex.unheld, ProgState.table, orPanic, GoMap.has, hk]
  exact cmap_unheld_eta _ hi'

theorem Contains_unhashable (key : Value) (s : ProgState) (hi : s.Idle)
    (hk : key.hashable = false) : Contains key s = .error Fault.unhashableKey := by
  have hi' : s.cmap.rwmutex = RWMutex.unheld := hi
  simp [Contains, hi', bind, StateT.bind, Except.bind, pure,
    Except.pure, StateT.pure, rwmutexRLock, rwmutexRUnlock, mutexCall, readTable,
    RWMutex.RLock, RWMutex.RUnlock, RWMutex.unheld, ProgState.table, orPanic, GoMap.has, hk]

theorem fillSlice_loop (vs pre : List Value) :
    vs.foldlM fillStep (pre ++ List.replicate vs.length Value.nil, pre.length)
      = (Except.ok (pre ++ vs, pre.length + vs.length) : Except Fault _) := by
  induction vs generalizing pre with
  | nil => simp [pure, Except.pure]
  | cons v vs ih =>
    have h1 : pre.length < (pre ++ List.replicate (v :: vs).length Value.nil).length := by
      simp
    have h2 : (pre ++ List.replicate (v :: vs).length Value.nil).set pre.length v
        = (pre ++ [v]) ++ List.replicate vs.length Value.nil := by
      simp [List.replicate_succ, List.set_append_right]
    have := ih (pre ++ [v])
    simp only [List.length_append, List.length_singleton] at this
    simp only [List.foldlM_cons, fillStep, sliceAssign, h1, if_true, bind, Except.bind, h2]
    rw [this]
    simp [Nat.add_assoc, Nat.add_comm 1]

theorem fillSlice_replicate (vs : List Value) :
    fillSlice (List.replicate vs.length Value.nil) vs = .ok vs := by
  have := fillSlice_loop vs []
  simp only [List.nil_append, List.length_nil, Nat.zero_add] at this
  simp [fillSlice, this]

theorem Keys_idle (s : ProgState) (hi : s.Idle) :
    Keys s = .ok (s.table.range.map Prod.fst,
      { s with log := s.log ++ [Event.RLock, Event.read ⟨1, false⟩, Event.read ⟨1, false⟩,
                                Event.RUnlock] }) := by
  have hi' : s.cmap.rwmutex = RWMutex.unheld := hi
  have hlen : s.table.len = (s.table.range.map Prod.fst).length := by
    simp [GoMap.len, GoMap.range]
  have hfill := fillSlice_replicate (s.table.range.map Prod.fst)
  rw [← hlen] at hfill
  simp only [ProgState.table] at hfill
  simp [Keys, hi', bind, StateT.bind, Except.bind, pure,
    Except.pure, StateT.pure, rwmutexRLock, rwmutexRUnlock, mutexCall, readTable,
    RWMutex.RLock, RWMutex.RUnlock, RWMutex.unheld, ProgState.table, orPanic, hfill]
  exact cmap_unheld_eta _ hi'

theorem Elems_idle (s : ProgState) (hi : s.Idle) :
    Elems s = .ok (s.table.range.map Prod.snd,
      { s with log := s.log ++ [Event.RLock, Event.read ⟨1, false⟩, Event.read ⟨1, false⟩,
                                Event.RUnlock] }) := by
  have hi' : s.cmap.rwmutex = RWMutex.unheld := hi
  have hlen : s.table.len = (s.table.range.map Prod.snd).length := by
    simp [GoMap.len, GoMap.range]
  have hfill := fillSlice_replicate (s.table.range.map Prod.snd)
  rw [← hlen] at hfill
  simp only [ProgState.table] at hfill
  simp [Elems, hi', bind, StateT.bind, Except.bind, pure,
    Except.pure, StateT.pure, rwmutexRLock, rwmutexRUnlock, mutexCall, readTable,
    RWMutex.RLock, RWMutex.RUnlock, RWMutex.unheld, ProgState.table, orPanic, hfill]
  exact cmap_unheld_eta _ hi'

theorem rangeLoop_mapAssign (l : List (Value × Value)) (r : Addr) (d : Prog Unit)
    (s : ProgState) (hl : ∀ e ∈ l, e.1.hashable = true) :
    ∃ m : GoMap, rangeLoop l (fun k v => mapAssign r k v d) s
        = .ok ((), { s with heap := s.heap.set r m }) ∧
      m.entries = copyEntries l (s.heap.objs r).entries := by
  induction l generalizing s with
  | nil =>
    exact ⟨s.heap.objs r, by simp [rangeLoop, Heap.set_self, pure, StateT.pure, Except.pure],
      by simp [copyEntries]⟩
  | cons kv l ih =>
    have hk : kv.1.hashable = true := hl kv (List.mem_cons_self _ _)
    obtain ⟨m, hm, hme⟩ := ih
      { s with heap := s.heap.set r ((s.heap.objs r).put kv.1 kv.2 hk) }
      (fun e he => hl e (List.mem_cons_of_mem _ he))
    refine ⟨m, ?_, ?_⟩
    · simp only [rangeLoop, bind, StateT.bind, Except.bind, mapAssign,
        GoMap.assign_hashable _ _ _ hk]
      rw [hm]
      simp [Heap.set_set]
    · rw [hme]
      simp [Heap.set_objs_self, copyEntries, GoMap.put]

theorem ToMap_idle (s : ProgState) (hi : s.Idle) (ha : s.Allocated) :
    ToMap s = .ok (s.heap.next,
      { s with heap := { objs := Function.update s.heap.objs s.heap.next s.table,
                         next := s.heap.next + 1 },
               log := s.log ++ [Event.RLock, Event.read ⟨1, false⟩, Event.RUnlock] }) := by
  have hi' : s.cmap.rwmutex = RWMutex.unheld := hi
  have hne : s.cmap.m ≠ s.heap.next := Nat.ne_of_lt ha
  obtain ⟨m, hm, hme⟩ := rangeLoop_mapAssign s.table.range s.heap.next
    (mutexCall RWMutex.RUnlock Event.RUnlock)
    { cmap := { s.cmap with rwmutex := { readers := 1, writer := false } },
      heap := s.heap.make.2,
      log := s.log ++ [Event.RLock, Event.read { readers := 1, writer := false }] }
    s.table.hashableKeys
  have hmt : m = s.table := by
    apply GoMap.ext
    rw [hme]
    have : (s.heap.make.2.objs s.heap.next).entries = [] := by
      simp [Heap.make, GoMap.entries_empty]
    simp only [this]
    have := copyEntries_append s.table.entries [] (by simpa using s.table.distinctKeys)
    simpa [GoMap.range] using this
  subst hmt
  simp [ToMap, hi', bind, StateT.bind, Except.bind, pure,
    Except.pure, StateT.pure, rwmutexRLock, rwmutexRUnlock, mutexCall, readTable, makeMap,
    RWMutex.RLock, RWMutex.RUnlock, RWMutex.unheld, ProgState.table, Heap.make, hne]
  simp only [ProgState.table, Heap.make] at hm
  rw [hm]
  simp [Heap.set]
  exact cmap_unheld_eta _ hi'

theorem String_returns (s : ProgState) (kt et : GoType)
    (hk : s.cmap.keyType = some kt) (he : s.cmap.elemType = some et) :
    myConcurrentMap.String s = .ok
      ((s.table.range.foldl renderEntry
          ("ConcurrentMap<" ++ kt.Kind.String ++ "," ++ et.Kind.String ++ ">\x7b", true)).1
        ++ "\x7d",
       { s with log := s.log ++ [Event.read s.cmap.rwmutex] }) := by
  simp [myConcurrentMap.String, hk, he, bind, StateT.bind, Except.bind, pure, Except.pure,
    StateT.pure, get, getThe, MonadStateOf.get, StateT.get, liftExcept, deref, readTable]

theorem String_state (s s' : ProgState) (r : String)
    (h : myConcurrentMap.String s = .ok (r, s')) :
    s' = { s with log := s.log ++ [Event.read s.cmap.rwmutex] } := by
  cases hk : s.cmap.keyType with
  | none =>
    simp [myConcurrentMap.String, hk, bind, StateT.bind, Except.bind, pure, Except.pure,
      StateT.pure, get, getThe, MonadStateOf.get, StateT.get, liftExcept, deref] at h
  | some kt =>
    cases he : s.cmap.elemType with
    | none =>
      simp [myConcurrentMap.String, hk, he, bind, StateT.bind, Except.bind, pure, Except.pure,
        StateT.pure, get, getThe, MonadStateOf.get, StateT.get, liftExcept, deref] at h
    | some et =>
      rw [String_returns s kt et hk he] at h
      simp only [Except.ok.injEq, Prod.mk.injEq] at h
      exact h.2.symm

theorem KeyType_returns (s : ProgState) : KeyType s = .ok (s.cmap.keyType, s) := rfl

theorem ElemType_returns (s : ProgState) : ElemType s = .ok (s.cmap.elemType, s) := rfl

/-- What one returning call does to an idle, allocated state. -/
theorem Call.run_effect (c : Call) (s s' : ProgState) (hi : s.Idle) (ha : s.Allocated)
    (h : c.run s = .ok ((), s')) :
    s'.Idle ∧ s'.Allocated ∧
    s'.cmap.keyType = s.cmap.keyType ∧ s'.cmap.elemType = s.cmap.elemType ∧
    s.heap.next ≤ s'.heap.next ∧
    (s'.cmap.m = s.cmap.m ∨ s.heap.next ≤ s'.cmap.m) ∧
    (∀ a, a < s.heap.next → a ≠ s.cmap.m → s'.heap.objs a = s.heap.objs a) ∧
    (s'.table = s.table ∨
      (∃ k e, ∃ hk : k.hashable = true, c = Call.Put k e ∧
        s.cmap.isAcceptablePair k e = true ∧ s'.table = s.table.put k e hk) ∨
      (∃ k, c = Call.Remove k ∧ s'.table = s.table.remove k) ∨
      (c = Call.Clear ∧ s'.table = ∅)) := by
  have hia : s.cmap.m < s.heap.next := ha
  cases c with
  | Get key =>
    have hw : s.cmap.rwmutex.writer = false := by
      have : s.cmap.rwmutex = RWMutex.unheld := hi
      rw [this]; rfl
    simp [Call.run, bind, StateT.bind, Except.bind, Get_faults key s hw] at h
  | Put key elem =>
    cases hacc : s.cmap.isAcceptablePair key elem with
    | false =>
      simp [Call.run, bind, StateT.bind, Except.bind, Put_rejected key elem s hacc, pure,
        StateT.pure, Except.pure] at h
      subst h
      exact ⟨hi, ha, rfl, rfl, le_refl _, Or.inl rfl, fun _ _ _ => rfl, Or.inl rfl⟩
    | true =>
      cases hk : key.hashable with
      | false =>
        simp [Call.run, bind, StateT.bind, Except.bind, Put_unhashable key elem s hacc hi hk]
          at h
      | true =>
        simp [Call.run, bind, StateT.bind, Except.bind, Put_accepted key elem s hacc hi hk,
          pure, StateT.pure, Except.pure] at h
        subst h
        refine ⟨hi, ha, rfl, rfl, le_refl _, Or.inl rfl, ?_,
          Or.inr (Or.inl ⟨key, elem, hk, rfl, hacc, ?_⟩)⟩
        · intro a _ hne
          exact Heap.set_objs_ne _ _ _ _ hne
        · simp [ProgState.table, Heap.set_objs_self]
  | Remove key =>
    cases hk : key.hashable with
    | false =>
      simp [Call.run, bind, StateT.bind, Except.bind, Remove_unhashable key s hi hk] at h
    | true =>
      simp [Call.run, bind, StateT.bind, Except.bind, Remove_idle key s hi hk, pure,
        StateT.pure, Except.pure] at h
      subst h
      refine ⟨hi, ha, rfl, rfl, le_refl _, Or.inl rfl, ?_,
        Or.inr (Or.inr (Or.inl ⟨key, rfl, ?_⟩))⟩
      · intro a _ hne
        exact Heap.set_objs_ne _ _ _ _ hne
      · simp [ProgState.table, Heap.set_objs_self]
  | Clear =>
    simp [Call.run, Clear_idle s hi] at h
    subst h
    refine ⟨hi, ?_, rfl, rfl, ?_, Or.inr (le_refl _), ?_,
      Or.inr (Or.inr (Or.inr ⟨rfl, ?_⟩))⟩
    · simp [ProgState.Allocated, Heap.make]
    · simp [Heap.make]
    · intro a hlt _
      simp [Heap.make, Function.update_noteq (Nat.ne_of_lt hlt)]
    · simp [ProgState.table, Heap.make]
  | Len =>
    simp [Call.run, bind, StateT.bind, Except.bind, Len_idle s hi, pure,
      StateT.pure, Except.pure] at h
    subst h
    exact ⟨hi, ha, rfl, rfl, le_refl _, Or.inl rfl, fun _ _ _ => rfl, Or.inl rfl⟩
  | Contains key =>
    cases hk : key.hashable with
    | false =>
      simp [Call.run, bind, StateT.bind, Except.bind, Contains_unhashable key s hi hk] at h
    | true =>
      simp [Call.run, bind, StateT.bind, Except.bind, Contains_idle key s hi hk, pure,
        StateT.pure, Except.pure] at h
      subst h
      exact ⟨hi, ha, rfl, rfl, le_refl _, Or.inl rfl, fun _ _ _ => rfl, Or.inl rfl⟩
  | Keys =>
    simp [Call.run, bind, StateT.bind, Except.bind, Keys_idle s hi, pure,
      StateT.pure, Except.pure] at h
    subst h
    exact ⟨hi, ha, rfl, rfl, le_refl _, Or.inl rfl, fun _ _ _ => rfl, Or.inl rfl⟩
  | Elems =>
    simp [Call.run, bind, StateT.bind, Except.bind, Elems_idle s hi, pure,
      StateT.pure, Except.pure] at h
    subst h
    exact ⟨hi, ha, rfl, rfl, le_refl _, Or.inl rfl, fun _ _ _ => rfl, Or.inl rfl⟩
  | ToMap =>
    simp [Call.run, bind, StateT.bind, Except.bind, ToMap_idle s hi ha, pure,
      StateT.pure, Except.pure] at h
    subst h
    refine ⟨hi, ?_, rfl, rfl, ?_, Or.inl rfl, ?_, Or.inl ?_⟩
    · exact Nat.lt_succ_of_lt hia
    · exact Nat.le_succ _
    · intro a hlt _
      simp [Function.update_noteq (Nat.ne_of_lt hlt)]
    · simp [ProgState.table, Function.update_noteq (Nat.ne_of_lt hia)]
  | KeyType =>
    simp [Call.run, bind, StateT.bind, Except.bind, KeyType_returns, pure,
      StateT.pure, Except.pure] at h
    subst h
    exact ⟨hi, ha, rfl, rfl, le_refl _, Or.inl rfl, fun _ _ _ => rfl, Or.inl rfl⟩
  | ElemType =>
    simp [Call.run, bind, StateT.bind, Except.bind, ElemType_returns, pure,
      StateT.pure, Except.pure] at h
    subst h
    exact ⟨hi, ha, rfl, rfl, le_refl _, Or.inl rfl, fun _ _ _ => rfl, Or.inl rfl⟩
  | String =>
    have hs : ∃ r, myConcurrentMap.String s = .ok (r, s') := by
      simp only [Call.run, bind, StateT.bind, Except.bind] at h
      cases hr : myConcurrentMap.String s with
      | error e => simp [hr] at h
      | ok p =>
        simp [hr, pure, StateT.pure, Except.pure] at h
        exact ⟨p.1, by rw [← h]⟩
    obtain ⟨r, hr⟩ := hs
    have := String_state s s' r hr
    subst this
    exact ⟨hi, ha, rfl, rfl, le_refl _, Or.inl rfl, fun _ _ _ => rfl, Or.inl rfl⟩

theorem isAcceptablePair_iff (c : myConcurrentMap) (k e : Value) :
    c.isAcceptablePair k e = true ↔
      k ≠ Value.nil ∧ TypeOf k = c.keyType ∧ e ≠ Value.nil ∧ TypeOf e = c.elemType := by
  unfold myConcurrentMap.isAcceptablePair
  by_cases h1 : k = Value.nil ∨ TypeOf k ≠ c.keyType
  · simp only [h1, if_true]
    constructor
    · intro h; cases h
    · rintro ⟨a, b, _, _⟩
      rcases h1 with h1 | h1
      · exact absurd h1 a
      · exact absurd b h1
  · by_cases h2 : e = Value.nil ∨ TypeOf e ≠ c.elemType
    · simp only [h1, h2, if_true, if_false]
      constructor
      · intro h; cases h
      · rintro ⟨_, _, a, b⟩
        rcases h2 with h2 | h2
        · exact absurd h2 a
        · exact absurd b h2
    · simp only [h1, h2, if_false]
      push_neg at h1 h2
      simp [h1.1, h1.2, h2.1, h2.2]

theorem isAcceptablePair_eq_false_iff (c : myConcurrentMap) (k e : Value) :
    c.isAcceptablePair k e = false ↔
      (k = Value.nil ∨ TypeOf k ≠ c.keyType ∨ e = Value.nil ∨ TypeOf e ≠ c.elemType) := by
  rw [← Bool.not_eq_true, isAcceptablePair_iff]
  constructor
  · intro h
    by_contra hc
    push_neg at hc
    exact h hc
  · rintro h ⟨a, b, c', d⟩
    rcases h with h | h | h | h
    · exact a h
    · exact h b
    · exact c' h
    · exact h d

theorem runCalls_nil (s : ProgState) : runCalls [] s = .ok ((), s) := rfl

theorem runCalls_cons (c : Call) (cs : List Call) (s : ProgState) :
    runCalls (c :: cs) s =
      match c.run s with
      | .ok (_, t) => runCalls cs t
      | .error e => .error e := by
  simp only [runCalls, bind, StateT.bind, Except.bind]
  cases c.run s <;> rfl

/-- Induction over a returning sequence of calls that starts idle and allocated. -/
theorem runCalls_invariant (P : ProgState → Prop) (calls : List Call)
    (hstep : ∀ c ∈ calls, ∀ (s s' : ProgState), s.Idle → s.Allocated → P s →
      c.run s = .ok ((), s') → P s') :
    ∀ (s s' : ProgState), s.Idle → s.Allocated → P s →
      runCalls calls s = .ok ((), s') → s'.Idle ∧ s'.Allocated ∧ P s' := by
  induction calls with
  | nil =>
    intro s s' hi ha hp h
    rw [runCalls_nil] at h
    simp only [Except.ok.injEq, Prod.mk.injEq, true_and] at h
    subst h
    exact ⟨hi, ha, hp⟩
  | cons c cs ih =>
    intro s s' hi ha hp h
    rw [runCalls_cons] at h
    cases hc : c.run s with
    | error e => simp [hc] at h
    | ok p =>
      obtain ⟨u, t⟩ := p
      simp only [hc] at h
      have eff := Call.run_effect c s t hi ha hc
      exact ih (fun c' hc' => hstep c' (List.mem_cons_of_mem c hc')) t s' eff.1 eff.2.1
        (hstep c (List.mem_cons_self c cs) s t hi ha hp hc) h

theorem NewConcurrentMap_idle (kt et : Option GoType) (h : Heap) :
    (NewConcurrentMap kt et h).Idle := rfl

theorem NewConcurrentMap_allocated (kt et : Option GoType) (h : Heap) :
    (NewConcurrentMap kt et h).Allocated := by
  simp [ProgState.Allocated, NewConcurrentMap, Heap.make]

theorem NewConcurrentMap_table (kt et : Option GoType) (h : Heap) :
    (NewConcurrentMap kt et h).table = ∅ := by
  simp [ProgState.table, NewConcurrentMap, Heap.make]

theorem Typed_step (c : Call) (s s' : ProgState) (hi : s.Idle) (ha : s.Allocated)
    (ht : s.Typed) (h : c.run s = .ok ((), s')) : s'.Typed := by
  obtain ⟨_, _, hk, he, _, _, _, htab⟩ := Call.run_effect c s s' hi ha h
  intro k v hkv
  rw [hk, he]
  rcases htab with htab | ⟨k0, e0, hk0, _, hacc, htab⟩ | ⟨k0, _, htab⟩ | ⟨_, htab⟩
  · rw [htab] at hkv
    exact ht k v hkv
  · rw [htab] at hkv
    rcases mem_assignEntries hkv with h1 | h1
    · have hk1 : k = k0 := congrArg Prod.fst h1
      have hv1 : v = e0 := congrArg Prod.snd h1
      rw [hk1, hv1]
      exact (isAcceptablePair_iff _ _ _).1 hacc
    · exact ht k v h1
  · rw [htab] at hkv
    exact ht k v (mem_deleteEntries hkv)
  · rw [htab, GoMap.entries_empty] at hkv
    cases hkv

theorem Reachable_invariant (kt et : Option GoType) (s : ProgState) (h : Reachable kt et s) :
    s.Idle ∧ s.Allocated ∧ s.Typed ∧ s.cmap.keyType = kt ∧ s.cmap.elemType = et := by
  obtain ⟨hp, calls, hrun⟩ := h
  have := runCalls_invariant
    (fun s => s.Typed ∧ s.cmap.keyType = kt ∧ s.cmap.elemType = et) calls
    (fun c _ s s' hi ha hP hc =>
      ⟨Typed_step c s s' hi ha hP.1 hc,
       (Call.run_effect c s s' hi ha hc).2.2.1.trans hP.2.1,
       (Call.run_effect c s s' hi ha hc).2.2.2.1.trans hP.2.2⟩)
    (NewConcurrentMap kt et hp) s (NewConcurrentMap_idle kt et hp)
    (NewConcurrentMap_allocated kt et hp)
    ⟨fun k v hkv => (by
      rw [NewConcurrentMap_table, GoMap.entries_empty] at hkv
      cases hkv),
     rfl, rfl⟩
    hrun
  exact ⟨this.1, this.2.1, this.2.2.1, this.2.2.2.1, this.2.2.2.2⟩

theorem Prog.bind_ok {α β : Type} {x : Prog α} {s t : ProgState} {a : α}
    (h : x s = .ok (a, t)) (f : α → Prog β) : (x >>= f) s = f a t := by
  simp [bind, StateT.bind, Except.bind, h]

theorem Prog.bind_error {α β : Type} {x : Prog α} {s : ProgState} {e : Fault}
    (h : x s = .error e) (f : α → Prog β) : (x >>= f) s = .error e := by
  simp [bind, StateT.bind, Except.bind, h]

theorem Prog.pure_run {α : Type} (a : α) (s : ProgState) :
    (pure a : Prog α) s = .ok (a, s) := rfl

theorem Idle.writer_false {s : ProgState} (hi : s.Idle) : s.cmap.rwmutex.writer = false := by
  have h : s.cmap.rwmutex = RWMutex.unheld := hi
  rw [h]
  rfl

theorem Put_spec (key elem : Value) (s : ProgState)
    (h : s.cmap.isAcceptablePair key elem = true) (hi : s.Idle) (hk : key.hashable = true) :
    ∃ s', Put key elem s = .ok ((s.table.valueAt key, true), s') ∧ s'.Idle ∧
      s'.table = s.table.put key elem hk ∧ s'.cmap = s.cmap :=
  ⟨_, Put_accepted key elem s h hi hk, hi, by simp [ProgState.table, Heap.set_objs_self], rfl⟩

theorem Remove_spec (key : Value) (s : ProgState) (hi : s.Idle) (hk : key.hashable = true) :
    ∃ s', Remove key s = .ok (s.table.valueAt key, s') ∧ s'.Idle ∧
      s'.table = s.table.remove key ∧ s'.cmap = s.cmap :=
  ⟨_, Remove_idle key s hi hk, hi, by simp [ProgState.table, Heap.set_objs_self], rfl⟩

theorem Clear_spec (s : ProgState) (hi : s.Idle) :
    ∃ s', Clear s = .ok ((), s') ∧ s'.Idle ∧ s'.table = ∅ ∧
      s'.cmap.keyType = s.cmap.keyType ∧ s'.cmap.elemType = s.cmap.elemType :=
  ⟨_, Clear_idle s hi, hi, by simp [ProgState.table, Heap.make], rfl, rfl⟩

theorem Len_spec (s : ProgState) (hi : s.Idle) :
    ∃ s', Len s = .ok (s.table.len, s') ∧ s'.Idle ∧ s'.table = s.table ∧ s'.cmap = s.cmap :=
  ⟨_, Len_idle s hi, hi, rfl, rfl⟩

theorem Contains_spec (key : Value) (s : ProgState) (hi : s.Idle)
    (hk : key.hashable = true) :
    ∃ s', Contains key s = .ok (s.table.present key, s') ∧ s'.Idle ∧ s'.table = s.table ∧
      s'.cmap = s.cmap :=
  ⟨_, Contains_idle key s hi hk, hi, rfl, rfl⟩

theorem Keys_spec (s : ProgState) (hi : s.Idle) :
    ∃ s', Keys s = .ok (s.table.range.map Prod.fst, s') ∧ s'.Idle ∧ s'.table = s.table ∧
      s'.cmap = s.cmap :=
  ⟨_, Keys_idle s hi, hi, rfl, rfl⟩

theorem never_put_lookup (key : Value) (calls : List Call)
    (hne : ∀ e, Call.Put key e ∉ calls) (s s' : ProgState) (hi : s.Idle) (ha : s.Allocated)
    (hnone : s.table.lookup key = none) (hrun : runCalls calls s = .ok ((), s')) :
    s'.Idle ∧ s'.Allocated ∧ s'.table.lookup key = none := by
  refine runCalls_invariant (fun t => t.table.lookup key = none) calls ?_ s s' hi ha hnone hrun
  intro c hc t t' hti hta hP hct
  obtain ⟨_, _, _, _, _, _, _, htab⟩ := Call.run_effect c t t' hti hta hct
  show t'.table.lookup key = none
  rcases htab with htab | ⟨k0, e0, hk0, hk, _, htab⟩ | ⟨k0, _, htab⟩ | ⟨_, htab⟩
  · rw [htab]; exact hP
  · have hkk : key ≠ k0 := by
      rintro rfl
      exact hne e0 (hk ▸ hc)
    rw [htab, GoMap.lookup_put_ne _ _ _ hkk]
    exact hP
  · by_cases hkk : key = k0
    · subst hkk
      rw [htab, GoMap.lookup_remove_self]
    · rw [htab, GoMap.lookup_remove_ne _ hkk]
      exact hP
  · rw [htab, GoMap.lookup_empty]

/-- A map object below the allocation pointer that is not the table is left alone by calls. -/
theorem other_object_kept (r : Addr) (calls : List Call) (s s' : ProgState)
    (hi : s.Idle) (ha : s.Allocated) (hr : r < s.heap.next) (hne : r ≠ s.cmap.m)
    (hrun : runCalls calls s = .ok ((), s')) :
    s'.heap.objs r = s.heap.objs r := by
  have := runCalls_invariant
    (fun t => r < t.heap.next ∧ r ≠ t.cmap.m ∧ t.heap.objs r = s.heap.objs r) calls
    (fun c _ t t' hti hta hP hct => by
      obtain ⟨_, _, _, _, hnext, hm, hobjs, _⟩ := Call.run_effect c t t' hti hta hct
      refine ⟨Nat.lt_of_lt_of_le hP.1 hnext, ?_, ?_⟩
      · rcases hm with hm | hm
        · rw [hm]; exact hP.2.1
        · exact Nat.ne_of_lt (Nat.lt_of_lt_of_le hP.1 hm)
      · rw [hobjs r hP.1 hP.2.1]
        exact hP.2.2)
    s s' hi ha ⟨hr, hne, rfl⟩ hrun
  exact this.2.2.2.2

theorem renderEntry_foldl (l : List (Value × Value)) (hdr x : String) :
    (l.foldl renderEntry (hdr ++ x, false)).1
      = hdr ++ String.intercalate.go x " " (l.map entryText) := by
  induction l generalizing x with
  | nil => simp [String.intercalate.go]
  | cons kv l ih =>
    have step : renderEntry (hdr ++ x, false) kv
        = (hdr ++ (x ++ " " ++ entryText kv), false) := by
      simp [renderEntry, entryText, String.append_assoc]
    simp only [List.foldl_cons, List.map_cons, String.intercalate.go, step]
    exact ih _

theorem renderEntry_foldl_first (l : List (Value × Value)) (hdr : String) :
    (l.foldl renderEntry (hdr, true)).1
      = hdr ++ String.intercalate " " (l.map entryText) := by
  cases l with
  | nil => simp [String.intercalate]
  | cons kv l =>
    have step : renderEntry (hdr, true) kv = (hdr ++ entryText kv, false) := by
      simp [renderEntry, entryText, String.append_assoc]
    simp only [List.foldl_cons, List.map_cons, String.intercalate, step]
    exact renderEntry_foldl l hdr (entryText kv)

theorem String_nil_keyType_faults (s : ProgState) (h : s.cmap.keyType = none) :
    myConcurrentMap.String s = .error Fault.nilDereference := by
  simp [myConcurrentMap.String, h, bind, StateT.bind, Except.bind, get, getThe,
    MonadStateOf.get, StateT.get, liftExcept, deref, pure, StateT.pure, Except.pure]

theorem present_eq_valueAt_ne_nil (s : ProgState) (ht : s.Typed) (k : Value) :
    s.table.present k = decide (s.table.valueAt k ≠ Value.nil) := by
  cases hl : s.table.lookup k with
  | none => simp [GoMap.present, GoMap.valueAt, hl]
  | some v =>
    have hv : v ≠ Value.nil := (ht k v (GoMap.mem_of_lookup hl)).2.2.1
    simp [GoMap.present, GoMap.valueAt, hl, hv]

theorem present_eq_decide_mem_keys (t : GoMap) (k : Value) (hs : k.selfEqual = true) :
    t.present k = decide (k ∈ t.range.map Prod.fst) := by
  cases hl : t.lookup k with
  | none =>
    have : k ∉ t.range.map Prod.fst := by
      intro hm
      obtain ⟨e, he, hek⟩ := List.mem_map.1 hm
      have : (k, e.2) ∈ t.entries := by
        rw [← hek]
        exact he
      rw [GoMap.lookup_of_mem hs this] at hl
      cases hl
    simp [GoMap.present, hl, this]
  | some v =>
    have : k ∈ t.range.map Prod.fst :=
      List.mem_map.2 ⟨(k, v), GoMap.mem_of_lookup hl, rfl⟩
    simp [GoMap.present, hl, this]

theorem keys_pairwise (t : GoMap) :
    (t.range.map Prod.fst).Pairwise fun a b => a.equals b = false :=
  List.pairwise_map.2 t.distinctKeys

theorem keys_nodup_of_selfEqual (t : GoMap)
    (h : ∀ k ∈ t.range.map Prod.fst, k.selfEqual = true) : (t.range.map Prod.fst).Nodup := by
  have hp := keys_pairwise t
  refine List.Pairwise.imp_of_mem ?_ hp
  intro a b ha _ hab heq
  subst heq
  have : a.equals a = true := h a ha
  rw [this] at hab
  cases hab

/-- A sequence of calls that contains a `Get` does not return: run from an idle, allocated
state it stops with a fault, at that `Get` at the latest. -/
theorem runCalls_with_Get_faults (key : Value) (calls : List Call) (s : ProgState)
    (hi : s.Idle) (ha : s.Allocated) (hmem : Call.Get key ∈ calls) :
    ∃ f, runCalls calls s = .error f := by
  induction calls generalizing s with
  | nil => cases hmem
  | cons c cs ih =>
    rw [runCalls_cons]
    cases hc : c.run s with
    | error e => exact ⟨e, rfl⟩
    | ok p =>
      obtain ⟨u, t⟩ := p
      have eff := Call.run_effect c s t hi ha hc
      rcases List.mem_cons.1 hmem with heq | htail
      · subst heq
        have hget : (Call.Get key).run s = .error Fault.unlockOfUnlocked := by
          simp only [Call.run]
          exact Prog.bind_error (Get_faults key s (Idle.writer_false hi)) _
        rw [hget] at hc
        cases hc
      · exact ih t eff.1 eff.2.1 htail

theorem single_thread_log_faults :
    runCalls [Call.Put (Value.string "a") (Value.int 1), Call.Get (Value.string "a"),
      Call.Remove (Value.string "a")] stringIntMap = .error Fault.unlockOfUnlocked :=
  rfl

/-- The accesses of the other methods are made under the mutex: on an idle state each of them
appends only disciplined entries to the log. -/
theorem locked_methods_disciplined (s : ProgState) (key elem : Value) (hi : s.Idle)
    (ha : s.Allocated) (hk : key.hashable = true) (c : Call)
    (hc : c ∈ [Call.Put key elem, Call.Remove key, Call.Clear, Call.Len, Call.Contains key,
      Call.Keys, Call.Elems, Call.ToMap]) :
    ∃ s' evs, c.run s = .ok ((), s') ∧ s'.log = s.log ++ evs ∧
      ∀ ev ∈ evs, ev.disciplined = true := by
  simp only [List.mem_cons, List.mem_singleton, List.not_mem_nil, or_false] at hc
  rcases hc with rfl | rfl | rfl | rfl | rfl | rfl | rfl | rfl
  · cases hacc : s.cmap.isAcceptablePair key elem with
    | false =>
      refine ⟨s, [], ?_, by simp, by simp⟩
      simp only [Call.run]
      rw [Prog.bind_ok (Put_rejected key elem s hacc)]
      rfl
    | true =>
      simp only [Call.run]
      rw [Prog.bind_ok (Put_accepted key elem s hacc hi hk)]
      exact ⟨_, [Event.Lock, Event.read ⟨0, true⟩, Event.write ⟨0, true⟩, Event.Unlock],
        rfl, rfl, by decide⟩
  · simp only [Call.run]
    rw [Prog.bind_ok (Remove_idle key s hi hk)]
    exact ⟨_, [Event.Lock, Event.read ⟨0, true⟩, Event.write ⟨0, true⟩, Event.Unlock],
      rfl, rfl, by decide⟩
  · exact ⟨_, [Event.Lock, Event.write ⟨0, true⟩, Event.Unlock], Clear_idle s hi, rfl,
      by decide⟩
  · simp only [Call.run]
    rw [Prog.bind_ok (Len_idle s hi)]
    exact ⟨_, [Event.RLock, Event.read ⟨1, false⟩, Event.RUnlock], rfl, rfl, by decide⟩
  · simp only [Call.run]
    rw [Prog.bind_ok (Contains_idle key s hi hk)]
    exact ⟨_, [Event.RLock, Event.read ⟨1, false⟩, Event.RUnlock], rfl, rfl, by decide⟩
  · simp only [Call.run]
    rw [Prog.bind_ok (Keys_idle s hi)]
    exact ⟨_, [Event.RLock, Event.read ⟨1, false⟩, Event.read ⟨1, false⟩, Event.RUnlock],
      rfl, rfl, by decide⟩
  · simp only [Call.run]
    rw [Prog.bind_ok (Elems_idle s hi)]
    exact ⟨_, [Event.RLock, Event.read ⟨1, false⟩, Event.read ⟨1, false⟩, Event.RUnlock],
      rfl, rfl, by decide⟩
  · simp only [Call.run]
    rw [Prog.bind_ok (ToMap_idle s hi ha)]
    exact ⟨_, [Event.RLock, Event.read ⟨1, false⟩, Event.RUnlock], rfl, rfl, by decide⟩

theorem StateT_bind_ok_inv {α β : Type} {x : Prog α} {f : α → Prog β} {s t : ProgState}
    {b : β} (h : StateT.bind x f s = .ok (b, t)) :
    ∃ a u, x s = .ok (a, u) ∧ f a u = .ok (b, t) := by
  simp only [StateT.bind, bind, Except.bind] at h
  cases hx : x s with
  | error e => simp [hx] at h
  | ok p => exact ⟨p.1, p.2, rfl, by simpa [hx] using h⟩

/-- An accepted pair never makes `Put` return `accepted = false`. -/
theorem Put_flag_of_acceptable (key elem : Value) (s s' : ProgState) (old : Value) (b : Bool)
    (hacc : s.cmap.isAcceptablePair key elem = true)
    (h : Put key elem s = .ok ((old, b), s')) : b = true := by
  simp only [Put, hacc, bind, StateT.bind, get, getThe, MonadStateOf.get,
    StateT.get, pure, Except.pure, Bool.not_true, Except.bind] at h
  have h0 : StateT.bind rwmutexLock
      (fun _ =>
        StateT.bind readTable fun t =>
          StateT.bind (orPanic (t.index key) rwmutexUnlock) fun oldEle =>
            StateT.bind (assignTable key elem rwmutexUnlock) fun _ =>
              StateT.bind rwmutexUnlock fun _ => StateT.pure (oldEle, true))
      s = .ok ((old, b), s') := by
    simpa [StateT.bind, bind, Except.bind] using h
  obtain ⟨_, _, _, h1⟩ := StateT_bind_ok_inv h0
  obtain ⟨_, _, _, h2⟩ := StateT_bind_ok_inv h1
  obtain ⟨_, _, _, h3⟩ := StateT_bind_ok_inv h2
  obtain ⟨_, _, _, h4⟩ := StateT_bind_ok_inv h3
  obtain ⟨_, _, _, h5⟩ := StateT_bind_ok_inv h4
  simp only [StateT.pure, pure, Except.pure, Except.ok.injEq, Prod.mk.injEq] at h5
  exact h5.1.2.symm

/-! ## The claims -/

/-- C1 (the code departs from it): on an idle state, `Put(key, value)` with an acceptable pair
followed by `Get(key)` does not return `value`: `Get` stops with the fatal error of an `Unlock`
on a mutex that is only read-locked (and with a key of an unhashable type `Put` panics before
that). -/
theorem Put_then_Get_faults (s : ProgState) (key value : Value) (hi : s.Idle)
    (h : s.cmap.isAcceptablePair key value = true) :
    (do let _ ← Put key value
        Get key : Prog Value) s
      = .error (if key.hashable = true then Fault.unlockOfUnlocked
                else Fault.unhashableKey) := by
  cases hk : key.hashable with
  | true =>
    rw [Prog.bind_ok (Put_accepted key value s h hi hk)]
    exact Get_faults key _ (Idle.writer_false hi)
  | false =>
    rw [Prog.bind_error (Put_unhashable key value s h hi hk)]
    rfl

theorem Put_then_Get_faults_witness :
    stringIntMap.Idle ∧
    stringIntMap.cmap.isAcceptablePair (Value.string "a") (Value.int 1) = true ∧
    (do let _ ← Put (Value.string "a") (Value.int 1)
        Get (Value.string "a") : Prog Value) stringIntMap = .error Fault.unlockOfUnlocked :=
  ⟨rfl, by decide, Put_then_Get_faults stringIntMap _ _ rfl (by decide)⟩

/-- C2: `Put(key, elem)` returns `accepted = false` exactly when the key is nil, or its type is
not the key type, or the element is nil, or its type is not the element type; it then returns
the absent value and leaves the whole state as it was: the table (hence `Len()`), the mutex,
and the log, in which no mutex call appears. -/
theorem Put_rejects_iff (s : ProgState) (key elem : Value) :
    ((∃ old s', Put key elem s = .ok ((old, false), s')) ↔
      (key = Value.nil ∨ TypeOf key ≠ s.cmap.keyType ∨
        elem = Value.nil ∨ TypeOf elem ≠ s.cmap.elemType)) ∧
    ((key = Value.nil ∨ TypeOf key ≠ s.cmap.keyType ∨
        elem = Value.nil ∨ TypeOf elem ≠ s.cmap.elemType) →
      Put key elem s = .ok ((Value.nil, false), s) ∧
      (do let _ ← Put key elem
          Len : Prog Nat) s = Len s) := by
  have key_fact : (key = Value.nil ∨ TypeOf key ≠ s.cmap.keyType ∨
        elem = Value.nil ∨ TypeOf elem ≠ s.cmap.elemType) →
      Put key elem s = .ok ((Value.nil, false), s) := fun hbad =>
    Put_rejected key elem s ((isAcceptablePair_eq_false_iff _ _ _).2 hbad)
  refine ⟨⟨?_, fun hbad => ⟨_, _, key_fact hbad⟩⟩, fun hbad => ⟨key_fact hbad, ?_⟩⟩
  · rintro ⟨old, s', hput⟩
    rw [← isAcceptablePair_eq_false_iff]
    cases hacc : s.cmap.isAcceptablePair key elem with
    | false => rfl
    | true =>
      have := Put_flag_of_acceptable key elem s s' old false hacc hput
      cases this
  · rw [Prog.bind_ok (key_fact hbad)]

/-- C5 (the code departs from it): after any returning sequence of calls on a new container
in which `key` is never `Put`, `Contains(key)` returns false when `key` is of a hashable type,
but `Get(key)` does not return the absent value: it stops with the fatal error of its
deferred `Unlock`. -/
theorem Get_of_never_inserted_faults (keyType elemType : Option GoType) (h : Heap)
    (calls : List Call) (key : Value) (s : ProgState)
    (hne : ∀ e, Call.Put key e ∉ calls)
    (hrun : runCalls calls (NewConcurrentMap keyType elemType h) = .ok ((), s)) :
    Get key s = .error Fault.unlockOfUnlocked ∧
    (key.hashable = true → ∃ s', Contains key s = .ok (false, s')) := by
  obtain ⟨hi, _, hnone⟩ := never_put_lookup key calls hne _ s
    (NewConcurrentMap_idle _ _ h) (NewConcurrentMap_allocated _ _ h)
    (by rw [NewConcurrentMap_table, GoMap.lookup_empty]) hrun
  refine ⟨Get_faults key s (Idle.writer_false hi), fun hk => ?_⟩
  have hh : s.table.present key = false := by simp [GoMap.present, hnone]
  rw [Contains_idle key s hi hk, hh]
  exact ⟨_, rfl⟩

theorem Get_of_never_inserted_faults_witness :
    (∀ e, Call.Put (Value.string "b") e ∉ [Call.Put (Value.string "a") (Value.int 1)]) ∧
    runCalls [Call.Put (Value.string "a") (Value.int 1)] stringIntMap
      = .ok ((), stateAfter [Call.Put (Value.string "a") (Value.int 1)] stringIntMap) ∧
    Get (Value.string "b") (stateAfter [Call.Put (Value.string "a") (Value.int 1)] stringIntMap)
      = .error Fault.unlockOfUnlocked ∧
    ((Value.string "b").hashable = true → ∃ s', Contains (Value.string "b")
        (stateAfter [Call.Put (Value.string "a") (Value.int 1)] stringIntMap)
          = .ok (false, s')) :=
  ⟨by simp, rfl,
   Get_of_never_inserted_faults (some GoType.string) (some GoType.int) emptyHeap
     [Call.Put (Value.string "a") (Value.int 1)] (Value.string "b") _ (by simp) rfl⟩

/-- C6 (the code departs from it): started on an idle, allocated state, `Clear`, `Len`,
`Keys`, `Elems` and `ToMap`, and with a key of a hashable type also `Put`, `Remove` and
`Contains`, return and leave the mutex not held, but `Get` does not: it takes a shared hold
with `RLock` and its deferred call is `Unlock`, which is fatal on a mutex that is not held for
writing. -/
theorem Get_does_not_release (s : ProgState) (key elem : Value) (hi : s.Idle)
    (ha : s.Allocated) :
    Get key s = .error Fault.unlockOfUnlocked ∧
    (key.hashable = true →
      (∃ r s', Put key elem s = .ok (r, s') ∧ s'.Idle) ∧
      (∃ r s', Remove key s = .ok (r, s') ∧ s'.Idle) ∧
      (∃ r s', Contains key s = .ok (r, s') ∧ s'.Idle)) ∧
    (∃ s', Clear s = .ok ((), s') ∧ s'.Idle) ∧
    (∃ r s', Len s = .ok (r, s') ∧ s'.Idle) ∧
    (∃ r s', Keys s = .ok (r, s') ∧ s'.Idle) ∧
    (∃ r s', Elems s = .ok (r, s') ∧ s'.Idle) ∧
    (∃ r s', ToMap s = .ok (r, s') ∧ s'.Idle) := by
  refine ⟨Get_faults key s (Idle.writer_false hi), fun hk => ⟨?_,
      ⟨_, _, Remove_idle key s hi hk, hi⟩, ⟨_, _, Contains_idle key s hi hk, hi⟩⟩,
    ⟨_, Clear_idle s hi, hi⟩, ⟨_, _, Len_idle s hi, hi⟩,
    ⟨_, _, Keys_idle s hi, hi⟩,
    ⟨_, _, Elems_idle s hi, hi⟩, ⟨_, _, ToMap_idle s hi ha, hi⟩⟩
  cases hacc : s.cmap.isAcceptablePair key elem with
  | false => exact ⟨_, _, Put_rejected key elem s hacc, hi⟩
  | true => exact ⟨_, _, Put_accepted key elem s hacc hi hk, hi⟩

theorem Get_does_not_release_witness :
    stringIntMap.Idle ∧ stringIntMap.Allocated ∧
    (Get (Value.string "a") stringIntMap = .error Fault.unlockOfUnlocked ∧
    ((Value.string "a").hashable = true →
      (∃ r s', Put (Value.string "a") (Value.int 1) stringIntMap = .ok (r, s') ∧ s'.Idle) ∧
      (∃ r s', Remove (Value.string "a") stringIntMap = .ok (r, s') ∧ s'.Idle) ∧
      (∃ r s', Contains (Value.string "a") stringIntMap = .ok (r, s') ∧ s'.Idle)) ∧
    (∃ s', Clear stringIntMap = .ok ((), s') ∧ s'.Idle) ∧
    (∃ r s', Len stringIntMap = .ok (r, s') ∧ s'.Idle) ∧
    (∃ r s', Keys stringIntMap = .ok (r, s') ∧ s'.Idle) ∧
    (∃ r s', Elems stringIntMap = .ok (r, s') ∧ s'.Idle) ∧
    (∃ r s', ToMap stringIntMap = .ok (r, s') ∧ s'.Idle)) :=
  ⟨rfl, by decide,
   Get_does_not_release stringIntMap (Value.string "a") (Value.int 1) rfl (by decide)⟩

/-- C7 (the code departs from it): `String()` calls no method of the mutex. On an idle state
with non-nil type descriptors it returns, and all it adds to the log is one read of the table
made while the mutex is not held, which breaks the locking discipline. -/
theorem String_reads_without_lock (s : ProgState) (kt et : GoType) (hi : s.Idle)
    (hk : s.cmap.keyType = some kt) (he : s.cmap.elemType = some et) :
    ∃ r s', myConcurrentMap.String s = .ok (r, s') ∧
      s'.log = s.log ++ [Event.read RWMutex.unheld] ∧
      (Event.read RWMutex.unheld).disciplined = false ∧
      s'.cmap.rwmutex = RWMutex.unheld := by
  have hi' : s.cmap.rwmutex = RWMutex.unheld := hi
  refine ⟨_, _, String_returns s kt et hk he, ?_, rfl, hi'⟩
  simp [hi']

theorem String_reads_without_lock_witness :
    stringIntMap.Idle ∧
    stringIntMap.cmap.keyType = some GoType.string ∧
    stringIntMap.cmap.elemType = some GoType.int ∧
    ∃ r s', myConcurrentMap.String stringIntMap = .ok (r, s') ∧
      s'.log = stringIntMap.log ++ [Event.read RWMutex.unheld] ∧
      (Event.read RWMutex.unheld).disciplined = false ∧
      s'.cmap.rwmutex = RWMutex.unheld :=
  ⟨rfl, rfl, rfl, String_reads_without_lock stringIntMap GoType.string GoType.int rfl rfl rfl⟩

/-- C8: in every state that a container made by `NewConcurrentMap(keyType, elemType)` reaches
by a sequence of returning calls, every entry of the table, whether or not a lookup of its key
finds it, has a non-nil key of type `keyType` and a non-nil value of type `elemType`. -/
theorem stored_entries_typed (keyType elemType : Option GoType) (s : ProgState)
    (h : Reachable keyType elemType s) :
    (∀ k v, (k, v) ∈ s.table.entries →
      k ≠ Value.nil ∧ TypeOf k = keyType ∧ v ≠ Value.nil ∧ TypeOf v = elemType) ∧
    (∀ k v, s.table.lookup k = some v →
      k ≠ Value.nil ∧ TypeOf k = keyType ∧ v ≠ Value.nil ∧ TypeOf v = elemType) := by
  obtain ⟨_, _, ht, hk, he⟩ := Reachable_invariant keyType elemType s h
  have hmem : ∀ k v, (k, v) ∈ s.table.entries →
      k ≠ Value.nil ∧ TypeOf k = keyType ∧ v ≠ Value.nil ∧ TypeOf v = elemType := by
    intro k v hkv
    have := ht k v hkv
    rw [hk, he] at this
    exact this
  exact ⟨hmem, fun k v hkv => hmem k v (GoMap.mem_of_lookup hkv)⟩

theorem stored_entries_typed_witness :
    Reachable (some GoType.string) (some GoType.int)
      (stateAfter [Call.Put (Value.string "a") (Value.int 1)] stringIntMap) ∧
    (Value.string "a", Value.int 1) ∈
      (stateAfter [Call.Put (Value.string "a") (Value.int 1)] stringIntMap).table.entries ∧
    ((∀ k v, (k, v) ∈
        (stateAfter [Call.Put (Value.string "a") (Value.int 1)] stringIntMap).table.entries →
      k ≠ Value.nil ∧ TypeOf k = some GoType.string ∧
      v ≠ Value.nil ∧ TypeOf v = some GoType.int) ∧
    (∀ k v, (stateAfter [Call.Put (Value.string "a") (Value.int 1)] stringIntMap).table.lookup k
        = some v →
      k ≠ Value.nil ∧ TypeOf k = some GoType.string ∧
      v ≠ Value.nil ∧ TypeOf v = some GoType.int)) :=
  ⟨⟨emptyHeap, [Call.Put (Value.string "a") (Value.int 1)], rfl⟩, by decide,
   stored_entries_typed _ _ _ ⟨emptyHeap, [Call.Put (Value.string "a") (Value.int 1)], rfl⟩⟩

/-- C9: on an idle state, after `Clear()` the call `Len()` returns 0 and `Keys()` returns the
empty sequence, whatever the table held before, and `KeyType()` and `ElemType()` still return
the descriptors the container had. -/
theorem Clear_empties (s : ProgState) (hi : s.Idle) :
    ∃ s', (do Clear
              let n ← Len
              let keys ← Keys
              let kt ← KeyType
              let et ← ElemType
              pure (n, keys, kt, et) : Prog (Nat × List Value × Option GoType × Option GoType)) s
        = .ok ((0, [], s.cmap.keyType, s.cmap.elemType), s') := by
  obtain ⟨s1, h1, hi1, ht1, hk1, he1⟩ := Clear_spec s hi
  obtain ⟨s2, h2, hi2, ht2, hc2⟩ := Len_spec s1 hi1
  obtain ⟨s3, h3, _, _, hc3⟩ := Keys_spec s2 hi2
  rw [Prog.bind_ok h1, Prog.bind_ok h2, Prog.bind_ok h3, Prog.bind_ok (KeyType_returns s3),
    Prog.bind_ok (ElemType_returns s3)]
  refine ⟨s3, ?_⟩
  simp [Prog.pure_run, ht1, ht2, hc2, hc3, hk1, he1, GoMap.len, GoMap.range,
    GoMap.entries_empty]

theorem Clear_empties_witness :
    (stateAfter [Call.Put (Value.string "a") (Value.int 1)] stringIntMap).Idle ∧
    (stateAfter [Call.Put (Value.string "a") (Value.int 1)] stringIntMap).table.len = 1 ∧
    ∃ s', (do Clear
              let n ← Len
              let keys ← Keys
              let kt ← KeyType
              let et ← ElemType
              pure (n, keys, kt, et) : Prog (Nat × List Value × Option GoType × Option GoType))
          (stateAfter [Call.Put (Value.string "a") (Value.int 1)] stringIntMap)
        = .ok ((0, [], some GoType.string, some GoType.int), s') :=
  ⟨by decide, by decide,
   Clear_empties (stateAfter [Call.Put (Value.string "a") (Value.int 1)] stringIntMap)
     (by decide)⟩

/-- C10: on an idle, allocated state `ToMap()` returns a reference `r` to a map object that is
not the table and has exactly the entries of the table; the container is unchanged. Whatever
calls the container receives afterwards, the object at `r` stays as it was, and replacing the
object at `r` by any other map leaves the table as it was. -/
theorem ToMap_is_a_copy (s : ProgState) (hi : s.Idle) (ha : s.Allocated) :
    ∃ r s1, ToMap s = .ok (r, s1) ∧
      r ≠ s1.cmap.m ∧
      (s1.heap.objs r).entries.Perm s.table.entries ∧
      (∀ k, (s1.heap.objs r).lookup k = s.table.lookup k) ∧
      s1.cmap = s.cmap ∧ s1.table = s.table ∧
      (∀ calls s2, runCalls calls s1 = .ok ((), s2) → s2.heap.objs r = s1.heap.objs r) ∧
      (∀ m', ({ s1 with heap := s1.heap.set r m' } : ProgState).table = s1.table) := by
  have hlt : s.cmap.m < s.heap.next := ha
  have hne : s.heap.next ≠ s.cmap.m := Nat.ne_of_gt hlt
  refine ⟨_, _, ToMap_idle s hi ha, hne, ?_, ?_, rfl, ?_, ?_, ?_⟩
  · simp only [Function.update_same]
    exact List.Perm.refl _
  · intro k
    simp only [Function.update_same]
  · simp [ProgState.table, Function.update_noteq hne.symm]
  · intro calls s2 hrun
    exact other_object_kept s.heap.next calls _ s2 hi (Nat.lt_succ_of_lt hlt)
      (Nat.lt_succ_self _) hne hrun
  · intro m'
    simp [ProgState.table, Heap.set, Function.update_noteq hne.symm]

theorem ToMap_is_a_copy_witness :
    (stateAfter [Call.Put (Value.string "a") (Value.int 1)] stringIntMap).Idle ∧
    (stateAfter [Call.Put (Value.string "a") (Value.int 1)] stringIntMap).Allocated ∧
    ∃ r s1, ToMap (stateAfter [Call.Put (Value.string "a") (Value.int 1)] stringIntMap)
        = .ok (r, s1) ∧
      r ≠ s1.cmap.m ∧
      (s1.heap.objs r).entries.Perm
        (stateAfter [Call.Put (Value.string "a") (Value.int 1)] stringIntMap).table.entries ∧
      (∀ k, (s1.heap.objs r).lookup k =
        (stateAfter [Call.Put (Value.string "a") (Value.int 1)] stringIntMap).table.lookup k) ∧
      s1.cmap = (stateAfter [Call.Put (Value.string "a") (Value.int 1)] stringIntMap).cmap ∧
      s1.table = (stateAfter [Call.Put (Value.string "a") (Value.int 1)] stringIntMap).table ∧
      (∀ calls s2, runCalls calls s1 = .ok ((), s2) → s2.heap.objs r = s1.heap.objs r) ∧
      (∀ m', ({ s1 with heap := s1.heap.set r m' } : ProgState).table = s1.table) :=
  ⟨by decide, by decide,
   ToMap_is_a_copy (stateAfter [Call.Put (Value.string "a") (Value.int 1)] stringIntMap)
     (by decide) (by decide)⟩

/-- C11 (as amended): on an idle state `Keys()` returns a sequence that holds the key of each
entry of the table exactly once, in some order, and leaves the table and the container as they
were; its length is what `Len()` returns before and after the call; no two of its members are
`==`, and it has no duplicates when none of them is NaN; and a key that is `==` to itself
(not NaN, and of a hashable type) occurs in it exactly when `Contains` returns true for it. -/
theorem Keys_lists_present_keys (s : ProgState) (hi : s.Idle) :
    ∃ keys s1, Keys s = .ok (keys, s1) ∧
      s1.Idle ∧ s1.table = s.table ∧ s1.cmap = s.cmap ∧
      keys.Perm (s.table.entries.map Prod.fst) ∧
      (∃ s2, Len s = .ok (keys.length, s2)) ∧
      (∃ s2, Len s1 = .ok (keys.length, s2)) ∧
      keys.Pairwise (fun a b => a.equals b = false) ∧
      ((∀ k ∈ keys, k.selfEqual = true) → keys.Nodup) ∧
      ∀ k, k.selfEqual = true →
        (∃ s2, Contains k s = .ok (decide (k ∈ keys), s2)) ∧
        (∃ s2, Contains k s1 = .ok (decide (k ∈ keys), s2)) := by
  obtain ⟨s1, h1, hi1, ht1, hc1⟩ := Keys_spec s hi
  obtain ⟨s2, h2, _, _, _⟩ := Len_spec s hi
  obtain ⟨s3, h3, _, _, _⟩ := Len_spec s1 hi1
  have hlen : s.table.len = (s.table.range.map Prod.fst).length := by
    simp [GoMap.len, GoMap.range]
  rw [ht1] at h3
  rw [hlen] at h2 h3
  refine ⟨_, s1, h1, hi1, ht1, hc1, List.Perm.refl _, ⟨s2, h2⟩, ⟨s3, h3⟩, keys_pairwise _,
    keys_nodup_of_selfEqual _, ?_⟩
  intro k hs
  have hk : k.hashable = true := Value.hashable_of_selfEqual hs
  refine ⟨?_, ?_⟩
  · rw [Contains_idle k s hi hk, present_eq_decide_mem_keys _ k hs]
    exact ⟨_, rfl⟩
  · rw [Contains_idle k s1 hi1 hk, ht1, present_eq_decide_mem_keys _ k hs]
    exact ⟨_, rfl⟩

theorem Keys_lists_present_keys_witness :
    (stateAfter [Call.Put (Value.string "a") (Value.int 1),
      Call.Put (Value.string "b") (Value.int 2)] stringIntMap).Idle ∧
    (stateAfter [Call.Put (Value.string "a") (Value.int 1),
      Call.Put (Value.string "b") (Value.int 2)] stringIntMap).table.entries.map Prod.fst
        = [Value.string "a", Value.string "b"] ∧
    ∃ keys s1, Keys (stateAfter [Call.Put (Value.string "a") (Value.int 1),
        Call.Put (Value.string "b") (Value.int 2)] stringIntMap) = .ok (keys, s1) ∧
      s1.Idle ∧
      s1.table = (stateAfter [Call.Put (Value.string "a") (Value.int 1),
        Call.Put (Value.string "b") (Value.int 2)] stringIntMap).table ∧
      s1.cmap = (stateAfter [Call.Put (Value.string "a") (Value.int 1),
        Call.Put (Value.string "b") (Value.int 2)] stringIntMap).cmap ∧
      keys.Perm ((stateAfter [Call.Put (Value.string "a") (Value.int 1),
        Call.Put (Value.string "b") (Value.int 2)] stringIntMap).table.entries.map Prod.fst) ∧
      (∃ s2, Len (stateAfter [Call.Put (Value.string "a") (Value.int 1),
        Call.Put (Value.string "b") (Value.int 2)] stringIntMap) = .ok (keys.length, s2)) ∧
      (∃ s2, Len s1 = .ok (keys.length, s2)) ∧
      keys.Pairwise (fun a b => a.equals b = false) ∧
      ((∀ k ∈ keys, k.selfEqual = true) → keys.Nodup) ∧
      ∀ k, k.selfEqual = true →
        (∃ s2, Contains k (stateAfter [Call.Put (Value.string "a") (Value.int 1),
          Call.Put (Value.string "b") (Value.int 2)] stringIntMap)
            = .ok (decide (k ∈ keys), s2)) ∧
        (∃ s2, Contains k s1 = .ok (decide (k ∈ keys), s2)) :=
  ⟨by decide, by decide, Keys_lists_present_keys _ (by decide)⟩

/-- C11 as stated fails: on a new container with key type `float64`, after `Put(NaN, 1)` the
call `Keys()` returns the one-member sequence `[NaN]`, but `Contains(NaN)` returns false. -/
theorem Keys_holds_NaN_that_Contains_denies :
    floatIntMap.Idle ∧
    floatIntMap.cmap.isAcceptablePair (Value.float64 Float64.NaN) (Value.int 1) = true ∧
    ∃ s', (do let _ ← Put (Value.float64 Float64.NaN) (Value.int 1)
              let keys ← Keys
              let present ← Contains (Value.float64 Float64.NaN)
              pure (keys, present) : Prog (List Value × Bool)) floatIntMap
        = .ok (([Value.float64 Float64.NaN], false), s') := by
  have hi0 : floatIntMap.Idle := rfl
  have ht0 : floatIntMap.table = ∅ := NewConcurrentMap_table _ _ _
  obtain ⟨s1, h1, hi1, ht1, _⟩ := Put_spec (Value.float64 Float64.NaN) (Value.int 1)
    floatIntMap (by decide) hi0 rfl
  obtain ⟨s2, h2, hi2, ht2, _⟩ := Keys_spec s1 hi1
  obtain ⟨s3, h3, _, _, _⟩ := Contains_spec (Value.float64 Float64.NaN) s2 hi2 rfl
  rw [ht0] at ht1
  rw [ht1] at h2 ht2
  rw [ht2] at h3
  refine ⟨rfl, by decide, s3, ?_⟩
  rw [Prog.bind_ok h1, Prog.bind_ok h2, Prog.bind_ok h3, Prog.pure_run]
  rfl

/-- C14: when both type descriptors are non-nil, `String()` returns `ConcurrentMap<`, the kind
of the key type, a comma, the kind of the element type, `>` and an opening brace, then a body,
then a closing brace; the body is, for some ordering in which every entry of the table occurs
exactly once, the renderings `k:v` of the entries joined by single spaces, and it is empty
when the table is empty. When no key of the table is NaN, the ordering has no duplicates and
its members are exactly the pairs `(k, v)` for which a lookup of `k` finds `v`. -/
theorem String_format (s : ProgState) (kt et : GoType)
    (hk : s.cmap.keyType = some kt) (he : s.cmap.elemType = some et) :
    ∃ (order : List (Value × Value)) (s' : ProgState),
      order.Perm s.table.entries ∧
      ((∀ e ∈ s.table.entries, e.1.selfEqual = true) →
        order.Nodup ∧ ∀ k v, (k, v) ∈ order ↔ s.table.lookup k = some v) ∧
      (s.table.len = 0 → String.intercalate " " (order.map entryText) = "") ∧
      myConcurrentMap.String s = .ok
        ("ConcurrentMap<" ++ kt.Kind.String ++ "," ++ et.Kind.String ++ ">\x7b"
          ++ String.intercalate " " (order.map entryText) ++ "\x7d", s') := by
  refine ⟨s.table.range, { s with log := s.log ++ [Event.read s.cmap.rwmutex] },
    List.Perm.refl _, ?_, ?_, ?_⟩
  · intro hs
    have hs' : ∀ k ∈ s.table.range.map Prod.fst, k.selfEqual = true := by
      intro k hkm
      obtain ⟨e, he, hek⟩ := List.mem_map.1 hkm
      rw [← hek]
      exact hs e he
    refine ⟨List.Nodup.of_map _ (keys_nodup_of_selfEqual _ hs'), fun k v => ⟨fun hm => ?_,
      fun hl => GoMap.mem_of_lookup hl⟩⟩
    exact GoMap.lookup_of_mem (hs (k, v) hm) hm
  · intro h0
    have : s.table.range = [] := by
      apply List.eq_nil_of_length_eq_zero
      simpa [GoMap.len, GoMap.range] using h0
    rw [this]
    rfl
  · rw [String_returns s kt et hk he, renderEntry_foldl_first]

theorem String_format_witness :
    (stateAfter [Call.Put (Value.string "a") (Value.int 1),
      Call.Put (Value.string "b") (Value.int 2)] stringIntMap).cmap.keyType
        = some GoType.string ∧
    (stateAfter [Call.Put (Value.string "a") (Value.int 1),
      Call.Put (Value.string "b") (Value.int 2)] stringIntMap).cmap.elemType
        = some GoType.int ∧
    (stateAfter [Call.Put (Value.string "a") (Value.int 1),
      Call.Put (Value.string "b") (Value.int 2)] stringIntMap).table.entries
        = [(Value.string "a", Value.int 1), (Value.string "b", Value.int 2)] ∧
    ∃ (order : List (Value × Value)) (s' : ProgState),
      order.Perm (stateAfter [Call.Put (Value.string "a") (Value.int 1),
          Call.Put (Value.string "b") (Value.int 2)] stringIntMap).table.entries ∧
      ((∀ e ∈ (stateAfter [Call.Put (Value.string "a") (Value.int 1),
          Call.Put (Value.string "b") (Value.int 2)] stringIntMap).table.entries,
          e.1.selfEqual = true) →
        order.Nodup ∧ ∀ k v, (k, v) ∈ order ↔
          (stateAfter [Call.Put (Value.string "a") (Value.int 1),
            Call.Put (Value.string "b") (Value.int 2)] stringIntMap).table.lookup k = some v) ∧
      ((stateAfter [Call.Put (Value.string "a") (Value.int 1),
          Call.Put (Value.string "b") (Value.int 2)] stringIntMap).table.len = 0 →
        String.intercalate " " (order.map entryText) = "") ∧
      myConcurrentMap.String (stateAfter [Call.Put (Value.string "a") (Value.int 1),
          Call.Put (Value.string "b") (Value.int 2)] stringIntMap) = .ok
        ("ConcurrentMap<" ++ GoType.string.Kind.String ++ "," ++ GoType.int.Kind.String
          ++ ">\x7b" ++ String.intercalate " " (order.map entryText) ++ "\x7d", s') :=
  ⟨rfl, rfl, by decide, String_format _ GoType.string GoType.int rfl rfl⟩

/-- C15: `NewConcurrentMap(keyType, elemType)` yields a container for which `Len()` returns 0,
`KeyType()` returns `keyType` and `ElemType()` returns `elemType`; after any sequence of calls
that have returned, `KeyType()` and `ElemType()` still return these descriptors and leave the
state as it is. -/
theorem descriptors_fixed (keyType elemType : Option GoType) (h : Heap) (calls : List Call)
    (s : ProgState)
    (hrun : runCalls calls (NewConcurrentMap keyType elemType h) = .ok ((), s)) :
    (∃ s0, Len (NewConcurrentMap keyType elemType h) = .ok (0, s0)) ∧
    KeyType (NewConcurrentMap keyType elemType h)
      = .ok (keyType, NewConcurrentMap keyType elemType h) ∧
    ElemType (NewConcurrentMap keyType elemType h)
      = .ok (elemType, NewConcurrentMap keyType elemType h) ∧
    KeyType s = .ok (keyType, s) ∧ ElemType s = .ok (elemType, s) := by
  obtain ⟨_, _, _, hk, he⟩ := Reachable_invariant keyType elemType s ⟨h, calls, hrun⟩
  obtain ⟨s0, h0, _, _, _⟩ := Len_spec _ (NewConcurrentMap_idle keyType elemType h)
  rw [NewConcurrentMap_table] at h0
  refine ⟨⟨s0, h0⟩, rfl, rfl, ?_, ?_⟩
  · rw [KeyType_returns, hk]
  · rw [ElemType_returns, he]

theorem descriptors_fixed_witness :
    runCalls [Call.Put (Value.string "a") (Value.int 1)]
        (NewConcurrentMap (some GoType.string) (some GoType.int) emptyHeap)
      = .ok ((), stateAfter [Call.Put (Value.string "a") (Value.int 1)] stringIntMap) ∧
    KeyType (stateAfter [Call.Put (Value.string "a") (Value.int 1)] stringIntMap)
      = .ok (some GoType.string,
          stateAfter [Call.Put (Value.string "a") (Value.int 1)] stringIntMap) ∧
    ElemType (stateAfter [Call.Put (Value.string "a") (Value.int 1)] stringIntMap)
      = .ok (some GoType.int,
          stateAfter [Call.Put (Value.string "a") (Value.int 1)] stringIntMap) :=
  ⟨rfl, (descriptors_fixed (some GoType.string) (some GoType.int) emptyHeap
    [Call.Put (Value.string "a") (Value.int 1)] _ rfl).2.2.2⟩

/-- C16 (the code departs from it): on a new map for string keys and integer elements,
`Put("a", 1)` returns `(nil, true)`, `Put("a", 2)` returns `(1, true)`, `Put(42, 1)` returns
`(nil, false)`, `Len()` then returns 1, `Remove("a")` returns 2 and `Len()` returns 0; but
`Get("a")` after the two `Put`s does not return 2, it stops with the fatal unlock error. -/
theorem scenario_stops_at_Get :
    (∃ s', (do let p1 ← Put (Value.string "a") (Value.int 1)
               let p2 ← Put (Value.string "a") (Value.int 2)
               let p3 ← Put (Value.int 42) (Value.int 1)
               let n1 ← Len
               let r ← Remove (Value.string "a")
               let n2 ← Len
               pure (p1, p2, p3, n1, r, n2) :
             Prog ((Value × Bool) × (Value × Bool) × (Value × Bool) × Nat × Value × Nat))
          stringIntMap
        = .ok (((Value.nil, true), (Value.int 1, true), (Value.nil, false), 1, Value.int 2, 0),
            s')) ∧
    (do let _ ← Put (Value.string "a") (Value.int 1)
        let _ ← Put (Value.string "a") (Value.int 2)
        Get (Value.string "a") : Prog Value) stringIntMap
      = .error Fault.unlockOfUnlocked := by
  have hi0 : stringIntMap.Idle := rfl
  have ht0 : stringIntMap.table = ∅ := NewConcurrentMap_table _ _ _
  obtain ⟨s1, h1, hi1, ht1, hc1⟩ :=
    Put_spec (Value.string "a") (Value.int 1) stringIntMap (by decide) hi0 rfl
  have acc1 : s1.cmap.isAcceptablePair (Value.string "a") (Value.int 2) = true := by
    rw [hc1]; decide
  obtain ⟨s2, h2, hi2, ht2, hc2⟩ := Put_spec (Value.string "a") (Value.int 2) s1 acc1 hi1 rfl
  have rej : s2.cmap.isAcceptablePair (Value.int 42) (Value.int 1) = false := by
    rw [hc2, hc1]; decide
  have h3 := Put_rejected (Value.int 42) (Value.int 1) s2 rej
  obtain ⟨s4, h4, hi4, ht4, _⟩ := Len_spec s2 hi2
  obtain ⟨s5, h5, hi5, ht5, _⟩ := Remove_spec (Value.string "a") s4 hi4 rfl
  obtain ⟨s6, h6, _, _, _⟩ := Len_spec s5 hi5
  rw [ht0] at h1 ht1
  rw [ht1] at h2 ht2
  rw [ht2] at h4 ht4
  rw [ht4] at h5 ht5
  rw [ht5] at h6
  constructor
  · refine ⟨s6, ?_⟩
    rw [Prog.bind_ok h1, Prog.bind_ok h2, Prog.bind_ok h3, Prog.bind_ok h4, Prog.bind_ok h5,
      Prog.bind_ok h6, Prog.pure_run]
    rfl
  · rw [Prog.bind_ok h1, Prog.bind_ok h2]
    exact Get_faults _ s2 (Idle.writer_false hi2)

/-- C18 (the code departs from it): in every state reached from `NewConcurrentMap` by returning
calls, `Contains(key)` for a key of a hashable type returns true exactly when the value
`cmap.m[key]` that the table holds at the key is not nil, but `Get(key)` does not return that
value: for every key it stops with the fatal unlock error. -/
theorem Contains_iff_stored_but_Get_faults (keyType elemType : Option GoType) (s : ProgState)
    (h : Reachable keyType elemType s) (key : Value) :
    Get key s = .error Fault.unlockOfUnlocked ∧
    (key.hashable = true →
      ∃ s', Contains key s = .ok (decide (s.table.valueAt key ≠ Value.nil), s')) := by
  obtain ⟨hi, _, ht, _, _⟩ := Reachable_invariant keyType elemType s h
  refine ⟨Get_faults key s (Idle.writer_false hi), fun hk => ?_⟩
  obtain ⟨s', h1, _, _, _⟩ := Contains_spec key s hi hk
  rw [present_eq_valueAt_ne_nil s ht key] at h1
  exact ⟨s', h1⟩

theorem Contains_iff_stored_but_Get_faults_witness :
    Reachable (some GoType.string) (some GoType.int)
      (stateAfter [Call.Put (Value.string "a") (Value.int 1)] stringIntMap) ∧
    Get (Value.string "a") (stateAfter [Call.Put (Value.string "a") (Value.int 1)] stringIntMap)
      = .error Fault.unlockOfUnlocked ∧
    ((Value.string "a").hashable = true →
      ∃ s', Contains (Value.string "a")
          (stateAfter [Call.Put (Value.string "a") (Value.int 1)] stringIntMap)
        = .ok (decide ((stateAfter [Call.Put (Value.string "a") (Value.int 1)]
            stringIntMap).table.valueAt (Value.string "a") ≠ Value.nil), s')) :=
  ⟨⟨emptyHeap, [Call.Put (Value.string "a") (Value.int 1)], rfl⟩,
   Contains_iff_stored_but_Get_faults (some GoType.string) (some GoType.int)
     (stateAfter [Call.Put (Value.string "a") (Value.int 1)] stringIntMap)
     ⟨emptyHeap, [Call.Put (Value.string "a") (Value.int 1)], rfl⟩ (Value.string "a")⟩

/-- C20 (the code departs from it): on an idle state, for keys `k` and `k2` of hashable types
with `k2 != k`, `Put(k, e)` and `Remove(k)` leave the entry at `k2` as it was: a lookup of `k2`
in the table finds the same after the call as before, and `Contains(k2)` returns the same
result. But `Get(k2)` returns no result to compare, neither before nor after the call: it
stops with the fatal unlock error. -/
theorem Put_Remove_frame (s : ProgState) (k e k2 : Value) (hi : s.Idle)
    (hk : k.hashable = true) (hk2 : k2.hashable = true) (hne : k2.equals k = false) :
    (∃ r s', Put k e s = .ok (r, s') ∧
      s'.table.lookup k2 = s.table.lookup k2 ∧
      (∃ present t t',
        Contains k2 s = .ok (present, t) ∧ Contains k2 s' = .ok (present, t')) ∧
      Get k2 s = .error Fault.unlockOfUnlocked ∧
      Get k2 s' = .error Fault.unlockOfUnlocked) ∧
    (∃ r s', Remove k s = .ok (r, s') ∧
      s'.table.lookup k2 = s.table.lookup k2 ∧
      (∃ present t t',
        Contains k2 s = .ok (present, t) ∧ Contains k2 s' = .ok (present, t')) ∧
      Get k2 s = .error Fault.unlockOfUnlocked ∧
      Get k2 s' = .error Fault.unlockOfUnlocked) := by
  obtain ⟨t, hc, _, _, _⟩ := Contains_spec k2 s hi hk2
  have key_fact : ∀ (s' : ProgState), s'.Idle → s'.table.lookup k2 = s.table.lookup k2 →
      (∃ present t t',
        Contains k2 s = .ok (present, t) ∧ Contains k2 s' = .ok (present, t')) ∧
      Get k2 s = .error Fault.unlockOfUnlocked ∧
      Get k2 s' = .error Fault.unlockOfUnlocked := by
    intro s' hi' hl
    obtain ⟨t', hc', _, _, _⟩ := Contains_spec k2 s' hi' hk2
    have hh : s'.table.present k2 = s.table.present k2 := by simp [GoMap.present, hl]
    rw [hh] at hc'
    exact ⟨⟨_, t, t', hc, hc'⟩, Get_faults k2 s (Idle.writer_false hi),
      Get_faults k2 s' (Idle.writer_false hi')⟩
  have hput : ∀ m : GoMap, (m.put k e hk).lookup k2 = m.lookup k2 := by
    intro m
    by_cases heq : k2 = k
    · subst heq
      rw [GoMap.lookup_of_not_selfEqual _ hne, GoMap.lookup_of_not_selfEqual _ hne]
    · exact GoMap.lookup_put_ne m e hk heq
  have hrem : ∀ m : GoMap, (m.remove k).lookup k2 = m.lookup k2 := by
    intro m
    by_cases heq : k2 = k
    · subst heq
      rw [GoMap.lookup_of_not_selfEqual _ hne, GoMap.lookup_of_not_selfEqual _ hne]
    · exact GoMap.lookup_remove_ne m heq
  constructor
  · cases hacc : s.cmap.isAcceptablePair k e with
    | false =>
      exact ⟨_, s, Put_rejected k e s hacc, rfl, key_fact s hi rfl⟩
    | true =>
      obtain ⟨s', h1, hi1, ht1, _⟩ := Put_spec k e s hacc hi hk
      have hl : s'.table.lookup k2 = s.table.lookup k2 := by
        rw [ht1, hput]
      exact ⟨_, s', h1, hl, key_fact s' hi1 hl⟩
  · obtain ⟨s', h1, hi1, ht1, _⟩ := Remove_spec k s hi hk
    have hl : s'.table.lookup k2 = s.table.lookup k2 := by
      rw [ht1, hrem]
    exact ⟨_, s', h1, hl, key_fact s' hi1 hl⟩

theorem Put_Remove_frame_witness :
    (stateAfter [Call.Put (Value.string "a") (Value.int 1)] stringIntMap).Idle ∧
    (Value.string "b").hashable = true ∧ (Value.string "a").hashable = true ∧
    (Value.string "a").equals (Value.string "b") = false ∧
    (stateAfter [Call.Put (Value.string "a") (Value.int 1)] stringIntMap).table.lookup
      (Value.string "a") = some (Value.int 1) ∧
    ((∃ r s', Put (Value.string "b") (Value.int 2)
        (stateAfter [Call.Put (Value.string "a") (Value.int 1)] stringIntMap) = .ok (r, s') ∧
      s'.table.lookup (Value.string "a") =
        (stateAfter [Call.Put (Value.string "a") (Value.int 1)] stringIntMap).table.lookup
          (Value.string "a") ∧
      (∃ present t t',
        Contains (Value.string "a")
          (stateAfter [Call.Put (Value.string "a") (Value.int 1)] stringIntMap)
            = .ok (present, t) ∧
        Contains (Value.string "a") s' = .ok (present, t')) ∧
      Get (Value.string "a")
        (stateAfter [Call.Put (Value.string "a") (Value.int 1)] stringIntMap)
          = .error Fault.unlockOfUnlocked ∧
      Get (Value.string "a") s' = .error Fault.unlockOfUnlocked) ∧
    (∃ r s', Remove (Value.string "b")
        (stateAfter [Call.Put (Value.string "a") (Value.int 1)] stringIntMap) = .ok (r, s') ∧
      s'.table.lookup (Value.string "a") =
        (stateAfter [Call.Put (Value.string "a") (Value.int 1)] stringIntMap).table.lookup
          (Value.string "a") ∧
      (∃ present t t',
        Contains (Value.string "a")
          (stateAfter [Call.Put (Value.string "a") (Value.int 1)] stringIntMap)
            = .ok (present, t) ∧
        Contains (Value.string "a") s' = .ok (present, t')) ∧
      Get (Value.string "a")
        (stateAfter [Call.Put (Value.string "a") (Value.int 1)] stringIntMap)
          = .error Fault.unlockOfUnlocked ∧
      Get (Value.string "a") s' = .error Fault.unlockOfUnlocked)) :=
  ⟨by decide, rfl, rfl, by decide, by decide,
   Put_Remove_frame (stateAfter [Call.Put (Value.string "a") (Value.int 1)] stringIntMap)
     (Value.string "b") (Value.int 2) (Value.string "a") (by decide) rfl rfl (by decide)⟩

end Container
